import Mathlib

/-!
Verification of the TPIE external-memory B+ tree core
(`tpie/blocks/b_tree.h`, `b_tree_bits.h`, `b_tree_leaf.h`, `b_tree_block.h`,
`b_tree_builder.h`, `block_collection.h`) against its specification.

The C++ code is shallowly embedded as executable Lean functions.  Conventions:

* The tree is instantiated at the default `b_tree_traits<T>`: `Key = Value = T`
  with `Compare = std::less<T>` and `key_of_value` the identity, for a linearly
  ordered `T`.  This is the instantiation the repository itself uses in its
  tests and the one the specification describes.
* Raw block buffers are replaced by the typed content the node views overlay
  on them: a leaf block is its list of values (the first `degree` slots of the
  value array), an internal block is its list of child handles plus its list
  of separator keys.
* `std::partition(first, last, pred)` is modelled by
  `filter pred ++ filter (not pred)`: the multiset of each side of the
  partition point is exactly determined by the C++ contract, and nothing in
  the code observes the order within a side (leaves are unordered in-block and
  are sorted at dump time).
* `std::nth_element(first, nth, last)` and `std::sort` are modelled by fully
  sorting the range (`List.insertionSort`), which realizes the `nth_element`
  postcondition: the element at `nth` is the one sorting would place there and
  the range is partitioned around it.  Again only the per-side multisets are
  observable.
* Machine integers are `Nat`; the one place where unsigned wrap-around
  matters (`b_tree_block::keys()` computing `degree() - 1` on a degree-0
  block, claim C10) models the 64-bit subtraction explicitly via `% 2 ^ 64`.
* Code that throws `tpie::exception` is modelled with `Except String`
  (the message) or with an explicit error enumeration where the
  specification names error kinds.
-/

namespace Tpie

/-- Struct `b_tree_parameters` from `b_tree_bits.h`: the branching parameter
bounds for internal nodes and leaves. -/
structure Params where
  nodeMin : Nat
  nodeMax : Nat
  leafMin : Nat
  leafMax : Nat
deriving Repr, DecidableEq

/-- Predicate capturing `b_tree::verify_parameters` from `b_tree.h`:
`nodeMin ≥ 2`, `nodeMax ≥ 2·nodeMin − 1`, `leafMin ≥ 2`,
`leafMax ≥ 2·leafMin − 1`.  (`set_parameters` accepts exactly these.) -/
def Params.legal (p : Params) : Prop :=
  2 ≤ p.nodeMin ∧ 2 * p.nodeMin - 1 ≤ p.nodeMax ∧
  2 ≤ p.leafMin ∧ 2 * p.leafMin - 1 ≤ p.leafMax

instance : DecidablePred Params.legal := fun p => by
  unfold Params.legal; exact inferInstance

variable {α : Type} [LinearOrder α]

/-- Model of fully sorting a range of values by key
(`std::sort` / the sorting view of `std::nth_element`, with comparator
`key_less`, i.e. `≤` on keys under the default traits). -/
def sortVals (l : List α) : List α :=
  l.insertionSort (· ≤ ·)

/-- Model of `std::min_element` over a range by key (`key_less`): the
minimum of a nonempty list.  `dflt` stands for the dereference of the end
iterator, which the source never reaches on the modelled paths. -/
def minVal (dflt : α) : List α → α
  | [] => dflt
  | x :: xs => xs.foldl min x

namespace b_tree_leaf

/-- Leaf view member `degree()`: the number of live values in the leaf. -/
def degree (vs : List α) : Nat := vs.length

/-- Member `b_tree_leaf::index_of`: linear scan for the first value whose key
equals `key` (equality by comparator antisymmetry); returns `degree()` when
absent. -/
def index_of (vs : List α) (key : α) : Nat :=
  vs.findIdx (fun v => decide (¬ v < key ∧ ¬ key < v))

/-- Member `b_tree_leaf::count`: 1 when `index_of` hits, else 0. -/
def count (vs : List α) (key : α) : Nat :=
  if index_of vs key = degree vs then 0 else 1

/-- Member `b_tree_leaf::insert`: throws on a full leaf, otherwise appends the
value at slot `degree` (leaves are unordered in-block). -/
def insert (p : Params) (vs : List α) (v : α) : Except String (List α) :=
  if degree vs = p.leafMax then .error "Insert in full leaf"
  else .ok (vs ++ [v])

/-- Result of `b_tree_leaf::split_insert`: the value lists of the left and
right leaves and the returned minimum key of the right leaf. -/
structure LeafSplit (α : Type) where
  left : List α
  right : List α
  pivot : α
deriving Repr, DecidableEq

/-- Member `b_tree_leaf::split_insert` on a full leaf holding `vs`
(so `vs.length = leafMax`), inserting `v`.

The source partitions the value array around `v` (prefix: values with key
`< v`), takes `splitPoint = leafMax / 2`, and branches on the position
`insertionPoint` (= number of values `< v`) relative to `splitPoint`:

* `insertionPoint < splitPoint`: `nth_element` the suffix, left leaf becomes
  the first `splitPoint` values plus `v` (written into slot `splitPoint`),
  right leaf the rest;
* `insertionPoint > splitPoint`: `nth_element` the prefix, swap `v` with the
  value at `splitPoint`, left leaf is the first `splitPoint` values, right
  leaf is slot `splitPoint` (now `v`) through the end plus the swapped-out
  value appended;
* equal: as in the first case without the `nth_element`.

Finally it returns the key of `min_element` of the right leaf. -/
def split_insert (p : Params) (vs : List α) (v : α) : LeafSplit α :=
  let lt := vs.filter (fun x => decide (x < v))
  let ge := vs.filter (fun x => !decide (x < v))
  let ip := lt.length
  let s := p.leafMax / 2
  if ip < s then
    let arr := lt ++ sortVals ge
    let right := arr.drop s
    ⟨arr.take s ++ [v], right, minVal v right⟩
  else if s < ip then
    let arr := sortVals lt ++ ge
    let w := arr.getD s v
    let right := (v :: arr.drop (s + 1)) ++ [w]
    ⟨arr.take s, right, minVal v right⟩
  else
    let arr := lt ++ ge
    let right := arr.drop s
    ⟨arr.take s ++ [v], right, minVal v right⟩

/-- Result of `b_tree_leaf::fuse_with` (`fuse_result` plus its out-parameter
`midKey` and the rewritten leaves). -/
inductive FuseResult (α : Type) where
  | merge (left : List α)
  | share (left : List α) (right : List α) (midKey : α)
deriving Repr, DecidableEq

/-- Member `b_tree_leaf::fuse_with`: if the two leaves fit in one
(`degree + right.degree ≤ leafMax`) append `right` onto `left` and merge;
otherwise concatenate both into a scratch array, `nth_element` around its
midpoint `size / 2`, give the lower half to `left` and the upper half to
`right`, and report the value at the midpoint (the minimum of the new right
leaf) as the new separator key.  The empty case of the match is unreachable:
in the share branch `L ++ R` is longer than `leafMax ≥ size / 2`. -/
def fuse_with (p : Params) (L R : List α) : FuseResult α :=
  if degree L + degree R ≤ p.leafMax then .merge (L ++ R)
  else
    let all := sortVals (L ++ R)
    let mid := (degree L + degree R) / 2
    match all.drop mid with
    | [] => .merge (L ++ R)
    | m :: rest => .share (all.take mid) (m :: rest) m

end b_tree_leaf

namespace b_tree_block

/-- Bit width of `uint64_t` / `memory_size_type`, the types of
`b_tree_header::degree` and of the index arithmetic in the block view. -/
def U64 : Nat := 2 ^ 64

/-- Member `b_tree_block::keys()`: `degree() - 1` computed in unsigned 64-bit
arithmetic, so a degree-0 block reports `2 ^ 64 - 1` keys. -/
def keysOf (degree : Nat) : Nat := (degree + (U64 - 1)) % U64

/-- Bounds check of member `b_tree_block::key`: it throws exactly when
`idx > keys()`. -/
def keyThrows (degree idx : Nat) : Bool := decide (keysOf degree < idx)

/-- Bounds check of member `b_tree_block::child`: it throws exactly when
`idx > degree()`. -/
def childThrows (degree idx : Nat) : Bool := decide (degree < idx)

/-- Content of an internal node view: the live child handles
(`m_children[0..degree)`) and separator keys (`m_keys[0..degree-1)`).
`β` is the block-handle type (abstract here; subtrees in the tree model). -/
structure Block (α β : Type) where
  children : List β
  keys : List α
deriving Repr, DecidableEq

/-- Member `b_tree_block::insert` (on a non-full block): writes `leftChild`
over `children[i]`, inserts `k` at key slot `i` and `rightChild` at child
slot `i + 1`, shifting the higher keys and children one slot up. -/
def insert (ch : List β) (ks : List α) (i : Nat) (k : α) (l r : β) :
    Block α β :=
  ⟨ch.take i ++ [l, r] ++ ch.drop (i + 1), ks.take i ++ [k] ++ ks.drop i⟩

/-- Result of `b_tree_block::split_insert`: the two fresh nodes and the
promoted median key. -/
structure BlockSplit (α β : Type) where
  left : Block α β
  mid : α
  right : Block α β
deriving Repr, DecidableEq

/-- Member `b_tree_block::split_insert` on a full block (`degree = nodeMax`):
builds the virtual arrays of `nodeMax + 1` children and `nodeMax` keys
obtained by replacing child `insertIndex` with `leftChild`, inserting
`rightChild` after it and inserting `insertKey` at key slot `insertIndex`;
then copies the first `h = ⌈nodeMax / 2⌉` keys (loop condition
`in * 2 < keys.size()`) and `h + 1` children into the left node, returns key
`h` as the median, and copies the remaining keys and children into the right
node. -/
def split_insert (ch : List β) (ks : List α) (i : Nat) (k : α) (l r : β) :
    BlockSplit α β :=
  let ch' := ch.take i ++ [l, r] ++ ch.drop (i + 1)
  let ks' := ks.take i ++ [k] ++ ks.drop i
  let h := (ks'.length + 1) / 2
  ⟨⟨ch'.take (h + 1), ks'.take h⟩, ks'.getD h k,
   ⟨ch'.drop (h + 1), ks'.drop (h + 1)⟩⟩

end b_tree_block

/-- Error kinds of the block collection layer, as named by the
specification's error taxonomy.  `ReadOnly` is the
`"get_free_block: !m_write"` throw, `OutOfBlocks` the `"Out of blocks"`
throw. -/
inductive BCError where
  | ReadOnly
  | OutOfBlocks
  | InvalidHandle
deriving Repr, DecidableEq

namespace free_space_block

/-- Allocation bitmap of `free_space_block`: one `Bool` per potential block
handle (`true` = allocated).  The list spells out the `8 · block_size` bits
of block 0; the machine-word striding of the source is an access pattern,
not a change of content. -/
abbrev Bitmap := List Bool

/-- Member `free_space_block::initial` on a fresh zeroed bitmap of `n` bits:
only bit 0 (the bitmap block itself) is set. -/
def initial (n : Nat) : Bitmap :=
  (List.range n).map (fun i => decide (i = 0))

/-- Member `free_space_block::get_free_block`: scan for the lowest clear bit
(the word cursor `m_bufferNext` only skips all-ones words and is rewound on
free, so the scan always finds the globally lowest clear bit), set it and
return its index; throws `Out of blocks` when every bit is set. -/
def get_free_block (bm : Bitmap) : Except BCError (Nat × Bitmap) :=
  let i := bm.findIdx (fun b => !b)
  if i = bm.length then .error .OutOfBlocks
  else .ok (i, bm.set i true)

/-- Member `free_space_block::free_block`: clears bit `handle`
unconditionally — there is no range or null-sentinel check in the source.
For `handle ≥ 8 · block_size` the source writes outside the bitmap buffer
(undefined behaviour); the model is only applied to in-range handles. -/
def free_block (bm : Bitmap) (handle : Nat) : Bitmap :=
  bm.set handle false

end free_space_block

namespace block_collection

/-- State of a `block_collection`: the `m_write` flag given to `open` and the
in-memory allocation bitmap `m_freeSpace`.  The backing file and its
accessor are outside the collection (and outside `src/`); the collection
only forwards reads and writes to it. -/
structure Collection where
  m_write : Bool
  freeSpace : free_space_block.Bitmap
deriving Repr, DecidableEq

/-- Member `block_collection::get_free_block`: throws
`"get_free_block: !m_write"` (the `ReadOnly` kind) on a read-only
collection, otherwise delegates to the free-space bitmap. -/
def get_free_block (c : Collection) : Except BCError (Nat × Collection) :=
  if !c.m_write then .error .ReadOnly
  else
    match free_space_block.get_free_block c.freeSpace with
    | .error e => .error e
    | .ok (h, bm) => .ok (h, { c with freeSpace := bm })

/-- Member `block_collection::free_block`: delegates to
`free_space_block::free_block` with no check of any kind (no writable check,
no range check, no null-sentinel check). -/
def free_block (c : Collection) (handle : Nat) : Except BCError Collection :=
  .ok { c with freeSpace := free_space_block.free_block c.freeSpace handle }

/-- Observable outcome of `block_collection::write_block`.  The member body
is the single statement
`m_accessor.write_block(buf.get(), buf.get_handle(), block_size())`:
it performs no check of `m_write` (or of anything else) and hands the buffer
straight to the file accessor.  The accessor itself
(`tpie/file_accessor/...`) is outside the embedded core; the collection-level
observable is that the write was forwarded for the buffer's handle. -/
inductive WriteOutcome where
  | forwarded (handle : Nat)
deriving Repr, DecidableEq

/-- Member `block_collection::write_block`, modelled at the collection level:
it unconditionally forwards the write to the accessor — in particular it
never raises the `ReadOnly` error, whatever `m_write` is. -/
def write_block (c : Collection) (handle : Nat) :
    Except BCError (WriteOutcome × Collection) :=
  .ok (.forwarded handle, c)

end block_collection

/-- Functional mirror of the on-disk tree the `b_tree` engine manipulates:
a leaf block is its value list, an internal block is its child list plus its
separator-key list (`m_children[0..degree)`, `m_keys[0..degree-1)`).  Child
block handles are replaced by the subtrees they refer to; the block
collection plumbing (read/write/allocate of handles) is the identity on this
content. -/
inductive BTree (α : Type) where
  | leaf (vs : List α)
  | node (ch : List (BTree α)) (ks : List α)

/-- Outcome of inserting into a subtree: either the rewritten subtree, or —
when the subtree's root block had to be split — the two replacement blocks
and the key to pass to the parent (`k`, `leftChild`, `rightChild` of
`b_tree::insert`'s upward loop). -/
inductive InsResult (α : Type) where
  | one (t : BTree α)
  | split (l : BTree α) (k : α) (r : BTree α)

namespace b_tree

/-- Index of the child followed during descent in `b_tree::key_path`: the
first `i` with `k < key(i)`, or `keys()` when there is none. -/
def childIndex (ks : List α) (k : α) : Nat :=
  ks.findIdx (fun x => decide (k < x))

mutual

/-- Main work of `b_tree::insert`, recast as recursion on the subtree where
the iterative source descends with `key_path` and then propagates splits
back up the stored path: at a leaf, plain `b_tree_leaf::insert` when not
full, else `b_tree_leaf::split_insert`; at an internal block, descend into
child `childIndex`, then either install the rewritten child, or absorb the
child's split with `b_tree_block::insert` when not full, or split this block
too with `b_tree_block::split_insert`.  The `none` branch (descent index
outside the child array) cannot arise on well-formed trees, where
`ch.length = ks.length + 1 > childIndex ks v`. -/
def insertAux (p : Params) (v : α) : BTree α → InsResult α
  | .leaf vs =>
    if vs.length = p.leafMax then
      let s := b_tree_leaf.split_insert p vs v
      .split (.leaf s.left) s.pivot (.leaf s.right)
    else .one (.leaf (vs ++ [v]))
  | .node ch ks =>
    match insertChild p v ch (childIndex ks v) with
    | none => .one (.node ch ks)
    | some (.one t) =>
      .one (.node (ch.set (childIndex ks v) t) ks)
    | some (.split l k r) =>
      if ch.length = p.nodeMax then
        let s := b_tree_block.split_insert ch ks (childIndex ks v) k l r
        .split (.node s.left.children s.left.keys) s.mid
          (.node s.right.children s.right.keys)
      else
        let b := b_tree_block.insert ch ks (childIndex ks v) k l r
        .one (.node b.children b.keys)

/-- Recursive insertion into the `i`-th element of a child array
(the `read_block(child(i))` step of the descent); `none` when `i` is out of
range. -/
def insertChild (p : Params) (v : α) : List (BTree α) → Nat →
    Option (InsResult α)
  | [], _ => none
  | c :: _, 0 => some (insertAux p v c)
  | _ :: cs, i + 1 => insertChild p v cs i

end

/-- Member `b_tree::insert`: run the descent-and-split recursion from the
root; when the root itself splits, allocate a fresh block and make it the
new root with `b_tree_block::new_root(k, leftChild, rightChild)`
(degree 2, one key, two children), incrementing the height. -/
def insert (p : Params) (v : α) (t : BTree α) : BTree α :=
  match insertAux p v t with
  | .one t2 => t2
  | .split l k r => .node [l, r] [k]

mutual

/-- Member `b_tree::in_order_dump_visit`: at leaf distance 0, copy the
leaf's values out, sort them by key and emit them; at an internal block,
recurse through children `0 .. keys()` in order (all `degree()` children on
a well-formed block). -/
def in_order_dump : BTree α → List α
  | .leaf vs => sortVals vs
  | .node ch _ => dumpChildren ch

/-- The child loop of `in_order_dump_visit`. -/
def dumpChildren : List (BTree α) → List α
  | [] => []
  | c :: cs => in_order_dump c ++ dumpChildren cs

end

mutual

/-- Multiset (as a list, in block order) of the values stored in a subtree;
the raw contents the tree operations rearrange. -/
def treeList : BTree α → List α
  | .leaf vs => vs
  | .node ch _ => treeListAll ch

/-- `treeList` over a child array. -/
def treeListAll : List (BTree α) → List α
  | [] => []
  | c :: cs => treeList c ++ treeListAll cs

end

/-- Member `b_tree::insert` iterated over a list of values: insert each
element of `M` in order, starting from a fresh empty tree (whose root leaf
has degree 0). -/
def insertAll (p : Params) (M : List α) : BTree α :=
  M.foldl (fun t v => insert p v t) (.leaf [])

/-- Handle-level state of a `b_tree` object together with its block
collection, for the operations whose side effects on that state are under
scrutiny (claim C9).  `fileLeaf h` / `fileNode h` are the contents of disk
block `h` seen through the leaf view / the internal-node view (a fresh
never-written block of the temporary file reads back as zeroes, i.e. as
degree 0). -/
structure TreeState (α : Type) where
  m_root : Nat
  m_treeHeight : Nat
  m_blocks : block_collection.Collection
  fileLeaf : Nat → List α
  fileNode : Nat → List Nat × List α

/-- Member `b_tree::read_root`: when `m_root` is the null sentinel 0, grab a
free block from the collection, make it the root and reset the height to 0;
then read the root block.  The mutation of `m_root`, `m_treeHeight` and the
allocation bitmap happens even though the caller may be a pure query. -/
def read_root (s : TreeState α) : Except BCError (Nat × TreeState α) :=
  if s.m_root = 0 then
    match block_collection.get_free_block s.m_blocks with
    | .error e => .error e
    | .ok (h, c) =>
      .ok (h, { s with m_root := h, m_treeHeight := 0, m_blocks := c })
  else .ok (s.m_root, s)

/-- Descent loop of `b_tree::key_path` below the root: starting from block
handle `h`, follow child `childIndex` for `height` levels and return the
handle of the leaf reached.  (The `Child pointer is 0 in non-leaf` throw is
not modelled; the claims exercise only the `height = 0` case, where the loop
body never runs.) -/
def descend (s : TreeState α) (k : α) : Nat → Nat → Nat
  | 0, h => h
  | n + 1, h =>
    let b := s.fileNode h
    descend s k n (b.1.getD (childIndex b.2 k) 0)

/-- Members `b_tree::key_path` followed by the leaf read: the handle of the
leaf holding key `k`, plus the state as mutated by `read_root`. -/
def key_path (s : TreeState α) (k : α) :
    Except BCError (Nat × TreeState α) :=
  match read_root s with
  | .error e => .error e
  | .ok (r, s1) => .ok (descend s1 k s1.m_treeHeight r, s1)

/-- Member `b_tree::count`: descend with `key_path`, then
`b_tree_leaf::count` on the leaf reached.  Returns the count together with
the (possibly mutated) tree state. -/
def count (k : α) (s : TreeState α) :
    Except BCError (Nat × TreeState α) :=
  match key_path s k with
  | .error e => .error e
  | .ok (h, s1) => .ok (b_tree_leaf.count (s1.fileLeaf h) k, s1)

/-- Member `b_tree::try_find`: descend with `key_path`, return the value at
`index_of` when present (`some`), else `none`, together with the state. -/
def try_find (k : α) (s : TreeState α) :
    Except BCError (Option α × TreeState α) :=
  match key_path s k with
  | .error e => .error e
  | .ok (h, s1) =>
    let vs := s1.fileLeaf h
    let i := b_tree_leaf.index_of vs k
    if i = b_tree_leaf.degree vs then .ok (none, s1)
    else .ok (some (vs.getD i k), s1)

/-- Member `b_tree::find`: `try_find`, throwing
`Value with given key not found` when absent.  The inner `Except String`
carries that throw; the state (including the root installed by `read_root`)
is returned alongside it because the C++ object keeps its mutation when the
exception propagates. -/
def find (k : α) (s : TreeState α) :
    Except BCError (Except String α × TreeState α) :=
  match try_find k s with
  | .error e => .error e
  | .ok (none, s1) => .ok (.error "Value with given key not found", s1)
  | .ok (some v, s1) => .ok (.ok v, s1)

end b_tree

namespace b_tree_builder

/-- Enum `builder_state::type` from `b_tree_bits.h`. -/
inductive State where
  | EMPTY
  | BUILDING
  | BUILT
deriving Repr, DecidableEq

/-- State of a `b_tree_builder` at the granularity of claim C6: the
`m_state` flag, the sequence of values pushed so far, and the content the
destination tree has been given.  The block-level machinery of the
`BUILDING` paths (`m_leafBuffer`, the per-level deques of `m_layers`,
`push_leaf` / `reduce_layer` / `finish_layer` / `push_block`) only buffers
the pushed values into blocks and never reads or writes `m_state`; its net
effect at this interface is summarised by `pushed`, the buffered value
sequence, and by `tree`, which is `none` until `end()` runs
`m_tree.set_root` (the tree keeps `m_root = 0`, i.e. stays empty, until
then) and afterwards holds the built content. -/
structure Builder (α : Type) where
  m_state : State
  pushed : List α
  tree : Option (List α)

/-- A builder as constructed from a fresh tree: no items pushed, state
`EMPTY`, destination tree untouched (empty). -/
def fresh : Builder α := ⟨.EMPTY, [], none⟩

/-- Member `b_tree_builder::push`: throws
`b_tree_builder: push() after end()` in the `BUILT` state — before touching
anything else — and otherwise moves to `BUILDING` and stores the value into
the current leaf (buffering it towards the final tree). -/
def push (b : Builder α) (v : α) : Except String (Builder α) :=
  if b.m_state = State.BUILT then .error "b_tree_builder: push() after end()"
  else .ok { b with m_state := .BUILDING, pushed := b.pushed ++ [v] }

/-- Member `b_tree_builder::end`: throws
`b_tree_builder: end() after end()` in the `BUILT` state; in the `EMPTY`
state sets `m_state := BUILT` and returns at once — in particular without
running `push_leaf` / `finish_layer` / `set_root`, so the destination tree
is left untouched (empty); in the `BUILDING` state it flushes the last
leaf, finishes every layer and installs the resulting root into the tree
with `set_root`. -/
def end_build (b : Builder α) : Except String (Builder α) :=
  match b.m_state with
  | .BUILT => .error "b_tree_builder: end() after end()"
  | .EMPTY => .ok { b with m_state := .BUILT }
  | .BUILDING => .ok { b with m_state := .BUILT, tree := some b.pushed }

end b_tree_builder

namespace b_tree

/-- Optional lower bound: `lbOk lo v` says `v` is at least `lo` (no
constraint when `lo = none`). -/
def lbOk : Option α → α → Prop
  | none, _ => True
  | some l, v => l ≤ v

/-- Optional upper bound: `ubOk v hi` says `v` is at most `hi` (no
constraint when `hi = none`). -/
def ubOk : α → Option α → Prop
  | _, none => True
  | v, some u => v ≤ u

mutual

/-- Search-tree invariant of the B+ tree (invariant I4 and the structural
part of the node layout): every value lies between the optional bounds, and
in an internal node the `degree = keys + 1` child blocks are interleaved
with the weakly increasing separator keys so that child `i` is bounded by
keys `i − 1` and `i`.  Bounds are weak on both sides: `b_tree::key_path`
sends a key `k` into the first child whose upper separator is `> k`, and a
leaf split may leave values equal to the promoted separator on its left. -/
def Bnd (lo hi : Option α) : BTree α → Prop
  | .leaf vs => ∀ v ∈ vs, lbOk lo v ∧ ubOk v hi
  | .node ch ks => BndChain lo hi ch ks

/-- Interleaving invariant of an internal node's child and key arrays,
peeled from the front: a single child bounded by the node's own bounds, or
a first child bounded above by the first key followed by the remaining
chain bounded below by it.  Every key also lies within the node's original
bounds (`lbOk lo k` for later keys follows by transitivity). -/
def BndChain (lo hi : Option α) : List (BTree α) → List α → Prop
  | [c], [] => Bnd lo hi c
  | c :: ch, k :: ks =>
    lbOk lo k ∧ ubOk k hi ∧ Bnd lo (some k) c ∧ BndChain (some k) hi ch ks
  | _, _ => False

end

/-- Correctness of one `insertAux` step with respect to the search-tree
invariant: a plain rewrite stays within the same bounds; a split yields two
blocks separated (weakly) by the promoted key, which itself lies within the
original bounds. -/
def InsOk (lo hi : Option α) : InsResult α → Prop
  | .one t => Bnd lo hi t
  | .split l k r =>
    Bnd lo (some k) l ∧ Bnd (some k) hi r ∧ lbOk lo k ∧ ubOk k hi

/-- Content of one `insertAux` step: the stored values after the step are
the stored values before it plus the inserted one. -/
def InsPerm (v : α) (t : BTree α) : InsResult α → Prop
  | .one t2 => List.Perm (treeList t2) (v :: treeList t)
  | .split l _ r => List.Perm (treeList l ++ treeList r) (v :: treeList t)

/-- Structural induction over `BTree` with the membership-based induction
hypothesis for the child list of a node. -/
def btreeInd {α : Type} {motive : BTree α → Prop}
    (hleaf : ∀ vs, motive (BTree.leaf vs))
    (hnode : ∀ ch ks, (∀ c ∈ ch, motive c) → motive (BTree.node ch ks)) :
    ∀ t, motive t
  | BTree.leaf vs => hleaf vs
  | BTree.node ch ks =>
    hnode ch ks (fun c hc => btreeInd hleaf hnode c)
termination_by t => sizeOf t
decreasing_by
  exact Nat.lt_trans (List.sizeOf_lt_of_mem hc) (by simp; omega)

end b_tree

/-! ## Helper lemmas -/

variable {β : Type}

theorem sortVals_sorted (l : List α) : List.Sorted (· ≤ ·) (sortVals l) :=
  List.sorted_insertionSort _ l

theorem sortVals_perm (l : List α) : List.Perm (sortVals l) l :=
  List.perm_insertionSort _ l

theorem mem_sortVals {l : List α} {x : α} : x ∈ sortVals l ↔ x ∈ l :=
  (sortVals_perm l).mem_iff

theorem foldl_min_le_init (xs : List α) (a : α) : xs.foldl min a ≤ a := by
  induction xs generalizing a with
  | nil => exact le_refl a
  | cons x xs ih =>
    exact le_trans (ih (min a x)) (min_le_left a x)

theorem foldl_min_le_mem (xs : List α) (a : α) :
    ∀ x ∈ xs, xs.foldl min a ≤ x := by
  induction xs generalizing a with
  | nil => intro x hx; cases hx
  | cons y ys ih =>
    intro x hx
    rcases List.mem_cons.1 hx with rfl | hx
    · exact le_trans (foldl_min_le_init ys (min a x)) (min_le_right a x)
    · exact ih (min a y) x hx

theorem foldl_min_mem (xs : List α) (a : α) :
    xs.foldl min a = a ∨ xs.foldl min a ∈ xs := by
  induction xs generalizing a with
  | nil => exact Or.inl rfl
  | cons y ys ih =>
    rcases ih (min a y) with h | h
    · rcases le_total a y with hay | hya
      · rw [List.foldl_cons, h, min_eq_left hay]; exact Or.inl rfl
      · rw [List.foldl_cons, h, min_eq_right hya]
        exact Or.inr (List.mem_cons_self y ys)
    · exact Or.inr (List.mem_cons_of_mem y h)

theorem minVal_le (d : α) (l : List α) : ∀ x ∈ l, minVal d l ≤ x := by
  cases l with
  | nil => intro x hx; cases hx
  | cons y ys =>
    intro x hx
    rcases List.mem_cons.1 hx with rfl | hx
    · exact foldl_min_le_init ys x
    · exact foldl_min_le_mem ys y x hx

theorem minVal_mem (d : α) {l : List α} (h : l ≠ []) : minVal d l ∈ l := by
  cases l with
  | nil => exact absurd rfl h
  | cons y ys =>
    rcases foldl_min_mem ys y with h2 | h2
    · rw [minVal, h2]; exact List.mem_cons_self y ys
    · exact List.mem_cons_of_mem y h2

theorem sorted_take_le_drop {l : List α} (hl : List.Sorted (· ≤ ·) l)
    (n : Nat) : ∀ x ∈ l.take n, ∀ y ∈ l.drop n, x ≤ y := by
  have hp : List.Pairwise (· ≤ ·) (l.take n ++ l.drop n) := by
    rw [List.take_append_drop]; exact hl
  exact fun x hx y hy => (List.pairwise_append.1 hp).2.2 x hx y hy

/-! ## Claim C10: bounds checks of the internal-node accessors -/

/-- Claim C10: the bounds checks of `b_tree_block::key` and
`b_tree_block::child` are one-past-the-end permissive: `key(idx)` throws
only when `idx > keys()` and `child(idx)` only when `idx > degree()`, so
`key(keys())` and `child(degree())` pass the check; moreover on a block of
degree 0, `keys() = degree() - 1` wraps around to `2 ^ 64 - 1`, the maximum
unsigned 64-bit value, so the key bounds check passes for every
representable index. -/
theorem C10_accessor_bounds_checks :
    (∀ degree idx : Nat, b_tree_block.keyThrows degree idx = true ↔
        b_tree_block.keysOf degree < idx) ∧
    (∀ degree idx : Nat, b_tree_block.childThrows degree idx = true ↔
        degree < idx) ∧
    (∀ degree : Nat,
        b_tree_block.keyThrows degree (b_tree_block.keysOf degree) = false) ∧
    (∀ degree : Nat, b_tree_block.childThrows degree degree = false) ∧
    b_tree_block.keysOf 0 = 2 ^ 64 - 1 ∧
    (∀ idx : Nat, idx < 2 ^ 64 → b_tree_block.keyThrows 0 idx = false) := by
  refine ⟨fun d idx => by simp [b_tree_block.keyThrows],
    fun d idx => by simp [b_tree_block.childThrows],
    fun d => by simp [b_tree_block.keyThrows],
    fun d => by simp [b_tree_block.childThrows],
    by simp [b_tree_block.keysOf, b_tree_block.U64],
    fun idx h => ?_⟩
  have : b_tree_block.keysOf 0 = 2 ^ 64 - 1 := by
    simp [b_tree_block.keysOf, b_tree_block.U64]
  simp [b_tree_block.keyThrows, this]
  omega

/-- Witness for C10 at the concrete index 12345 on a degree-0 block. -/
theorem C10_accessor_bounds_checks_witness :
    12345 < 2 ^ 64 ∧ b_tree_block.keyThrows 0 12345 = false :=
  ⟨by decide, C10_accessor_bounds_checks.2.2.2.2.2 12345 (by decide)⟩

/-! ## Claim C6: builder state machine -/

/-- Claim C6: the builder follows the state machine
`Empty → Building → Built`: `push` in `BUILT` fails with the
builder-finalized error, `end` in `BUILT` fails with the builder-finalized
error, `end` in `EMPTY` succeeds while moving the builder to `BUILT` and
leaving the destination tree untouched (in particular a fresh builder's
tree stays empty), and `push` outside `BUILT` moves the builder to
`BUILDING`. -/
theorem C6_builder_state_machine {α : Type} :
    (∀ (b : b_tree_builder.Builder α) (v : α),
        b.m_state = b_tree_builder.State.BUILT →
        b_tree_builder.push b v =
          Except.error "b_tree_builder: push() after end()") ∧
    (∀ b : b_tree_builder.Builder α,
        b.m_state = b_tree_builder.State.BUILT →
        b_tree_builder.end_build b =
          Except.error "b_tree_builder: end() after end()") ∧
    (∀ b : b_tree_builder.Builder α,
        b.m_state = b_tree_builder.State.EMPTY →
        ∃ b2, b_tree_builder.end_build b = Except.ok b2 ∧
          b2.m_state = b_tree_builder.State.BUILT ∧
          b2.tree = b.tree ∧ b2.pushed = b.pushed) ∧
    b_tree_builder.end_build (b_tree_builder.fresh (α := α)) =
      Except.ok ⟨b_tree_builder.State.BUILT, [], none⟩ ∧
    (∀ (b : b_tree_builder.Builder α) (v : α),
        b.m_state ≠ b_tree_builder.State.BUILT →
        ∃ b2, b_tree_builder.push b v = Except.ok b2 ∧
          b2.m_state = b_tree_builder.State.BUILDING) := by
  refine ⟨?_, ?_, ?_, ?_, ?_⟩
  · intro b v hb; simp [b_tree_builder.push, hb]
  · intro b hb
    cases b with | mk st pushed tree => cases hb; rfl
  · intro b hb
    cases b with | mk st pushed tree =>
      cases hb
      exact ⟨_, rfl, rfl, rfl, rfl⟩
  · rfl
  · intro b v hb
    refine ⟨⟨b_tree_builder.State.BUILDING, b.pushed ++ [v], b.tree⟩,
      ?_, rfl⟩
    simp [b_tree_builder.push, hb]

/-- Witness for C6 at a fresh builder over `Nat` (state `EMPTY`) and a
builder in state `BUILT`. -/
theorem C6_builder_state_machine_witness :
    (b_tree_builder.fresh (α := Nat)).m_state = b_tree_builder.State.EMPTY ∧
    (∃ b2, b_tree_builder.end_build (b_tree_builder.fresh (α := Nat)) =
        Except.ok b2 ∧
      b2.m_state = b_tree_builder.State.BUILT ∧
      b2.tree = (b_tree_builder.fresh (α := Nat)).tree ∧
      b2.pushed = (b_tree_builder.fresh (α := Nat)).pushed) ∧
    b_tree_builder.push (⟨b_tree_builder.State.BUILT, [], some []⟩ :
        b_tree_builder.Builder Nat) 7 =
      Except.error "b_tree_builder: push() after end()" :=
  ⟨rfl, C6_builder_state_machine.2.2.1 _ rfl,
    C6_builder_state_machine.1 _ 7 rfl⟩

/-! ## Claim C7: writing to a read-only collection -/

/-- Counterexample to claim C7 as stated: on the concrete collection opened
with `writable = false` (read-only, fresh 8-bit bitmap), writing a buffer
with handle 3 does not fail with the `ReadOnly` error — `write_block`
contains no `m_write` check at all and forwards the write to the file
accessor. -/
theorem C7_counterexample :
    block_collection.write_block ⟨false, free_space_block.initial 8⟩ 3 =
      Except.ok (block_collection.WriteOutcome.forwarded 3,
        ⟨false, free_space_block.initial 8⟩) ∧
    block_collection.write_block ⟨false, free_space_block.initial 8⟩ 3 ≠
      Except.error BCError.ReadOnly :=
  ⟨rfl, by simp [block_collection.write_block]⟩

/-- Amended claim C7: on a collection opened with `writable = false`, it is
block allocation (`get_free_block`) that fails with the `ReadOnly` error;
`write_block` performs no writable check at the collection level and
unconditionally forwards every write to the file accessor. -/
theorem C7_read_only_allocation_check (c : block_collection.Collection)
    (h : c.m_write = false) :
    block_collection.get_free_block c = Except.error BCError.ReadOnly ∧
    ∀ hdl : Nat, block_collection.write_block c hdl =
      Except.ok (block_collection.WriteOutcome.forwarded hdl, c) := by
  constructor
  · simp [block_collection.get_free_block, h]
  · intro hdl; rfl

/-- Witness for C7 at a concrete read-only collection. -/
theorem C7_read_only_allocation_check_witness :
    (⟨false, free_space_block.initial 8⟩ :
        block_collection.Collection).m_write = false ∧
    (block_collection.get_free_block ⟨false, free_space_block.initial 8⟩ =
        Except.error BCError.ReadOnly ∧
      ∀ hdl : Nat,
        block_collection.write_block ⟨false, free_space_block.initial 8⟩ hdl =
          Except.ok (block_collection.WriteOutcome.forwarded hdl,
            ⟨false, free_space_block.initial 8⟩)) :=
  ⟨rfl, C7_read_only_allocation_check _ rfl⟩

/-! ## Claim C8: free of an invalid handle -/

/-- Counterexample to claim C8 as stated: freeing the null sentinel handle 0
(which the claim says must fail with `InvalidHandle` and leave the bitmap
unchanged) succeeds and clears the permanently reserved bit 0 of the
allocation bitmap. -/
theorem C8_counterexample :
    block_collection.free_block ⟨true, free_space_block.initial 8⟩ 0 =
      Except.ok ⟨true, (free_space_block.initial 8).set 0 false⟩ ∧
    (free_space_block.initial 8).set 0 false ≠ free_space_block.initial 8 ∧
    ∀ e : BCError,
      block_collection.free_block ⟨true, free_space_block.initial 8⟩ 0 ≠
        Except.error e :=
  ⟨rfl, by decide, fun e => by
    simp [block_collection.free_block]⟩

/-- Amended claim C8: `free_block` performs no handle validation whatsoever.
For every handle `h` inside the bitmap (including the null sentinel 0, whose
bit is permanently reserved), `free(h)` succeeds, clears bit `h` and leaves
every other bit unchanged; no `InvalidHandle` error is raised anywhere in
the collection.  (For `h ≥ 8 · block_size` the source indexes outside the
bitmap buffer — undefined behaviour — instead of failing.) -/
theorem C8_free_no_validation (c : block_collection.Collection) (h : Nat)
    (hlt : h < c.freeSpace.length) :
    block_collection.free_block c h =
      Except.ok { c with freeSpace := c.freeSpace.set h false } ∧
    (c.freeSpace.set h false).length = c.freeSpace.length ∧
    (c.freeSpace.set h false)[h]? = some false ∧
    ∀ j : Nat, j ≠ h → (c.freeSpace.set h false)[j]? = c.freeSpace[j]? := by
  refine ⟨rfl, by simp, ?_, ?_⟩
  · simp [List.getElem?_set, hlt]
  · intro j hj
    simp [List.getElem?_set, hj, Ne.symm hj]

/-- Witness for C8 at handle 0 of a fresh 8-bit bitmap. -/
theorem C8_free_no_validation_witness :
    0 < (free_space_block.initial 8).length ∧
    (block_collection.free_block ⟨true, free_space_block.initial 8⟩ 0 =
        Except.ok ⟨true, (free_space_block.initial 8).set 0 false⟩ ∧
      ((free_space_block.initial 8).set 0 false).length =
        (free_space_block.initial 8).length ∧
      ((free_space_block.initial 8).set 0 false)[0]? = some false ∧
      ∀ j : Nat, j ≠ 0 → ((free_space_block.initial 8).set 0 false)[j]? =
        (free_space_block.initial 8)[j]?) :=
  ⟨by decide, C8_free_no_validation ⟨true, free_space_block.initial 8⟩ 0
    (by decide)⟩

/-! ## Claim C9: read-only queries on an empty tree allocate the root -/

theorem get_free_block_spec {bm : free_space_block.Bitmap} {h : Nat}
    {bm2 : free_space_block.Bitmap}
    (hok : free_space_block.get_free_block bm = Except.ok (h, bm2)) :
    h < bm.length ∧ bm[h]? = some false ∧ bm2 = bm.set h true := by
  unfold free_space_block.get_free_block at hok
  by_cases hi : bm.findIdx (fun b => !b) = bm.length
  · simp [hi] at hok
  · simp [hi] at hok
    obtain ⟨rfl, rfl⟩ := hok
    have hle : bm.findIdx (fun b => !b) ≤ bm.length :=
      List.findIdx_le_length _
    have hlt : bm.findIdx (fun b => !b) < bm.length := lt_of_le_of_ne hle hi
    refine ⟨hlt, ?_, rfl⟩
    have hg : (!bm[bm.findIdx (fun b => !b)]) = true :=
      List.findIdx_getElem (w := hlt)
    rw [List.getElem?_eq_getElem hlt]
    simp only [Bool.not_eq_true'] at hg
    rw [hg]

theorem bc_get_free_block_spec {c : block_collection.Collection} {h : Nat}
    {c2 : block_collection.Collection}
    (hok : block_collection.get_free_block c = Except.ok (h, c2)) :
    c.m_write = true ∧
    free_space_block.get_free_block c.freeSpace =
      Except.ok (h, c2.freeSpace) ∧
    c2.m_write = c.m_write := by
  unfold block_collection.get_free_block at hok
  by_cases hw : c.m_write
  · simp [hw] at hok
    rcases hfs : free_space_block.get_free_block c.freeSpace with e | pr
    · rw [hfs] at hok; cases hok
    · rw [hfs] at hok
      obtain ⟨h2, bm2⟩ := pr
      simp only [Except.ok.injEq, Prod.mk.injEq] at hok
      obtain ⟨rfl, rfl⟩ := hok
      exact ⟨hw, rfl, hw.symm⟩
  · simp [hw] at hok

/-- Claim C9: on a tree whose root is the null sentinel 0 (the empty tree),
the read-only queries `count`, `try_find` and `find` are not side-effect
free — each one (through `key_path`'s call to `read_root`) allocates a
fresh block from the collection and installs its handle as the tree root
before descending, so the root handle and the allocation bitmap both change
as the result of a pure lookup. -/
theorem C9_lookups_allocate_root {α : Type} [LinearOrder α] (k : α)
    (s : b_tree.TreeState α) (hroot : s.m_root = 0)
    (hbit0 : s.m_blocks.freeSpace[0]? = some true)
    {h : Nat} {c2 : block_collection.Collection}
    (hgf : block_collection.get_free_block s.m_blocks = Except.ok (h, c2)) :
    ∃ s1 : b_tree.TreeState α,
      s1 = ⟨h, 0, c2, s.fileLeaf, s.fileNode⟩ ∧
      b_tree.count k s =
        Except.ok (b_tree_leaf.count (s1.fileLeaf h) k, s1) ∧
      (∃ r, b_tree.try_find k s = Except.ok (r, s1)) ∧
      (∃ r, b_tree.find k s = Except.ok (r, s1)) ∧
      h ≠ 0 ∧ s1.m_root ≠ s.m_root ∧
      c2.freeSpace ≠ s.m_blocks.freeSpace := by
  obtain ⟨hw, hfs, hw2⟩ := bc_get_free_block_spec hgf
  obtain ⟨hlt, hfalse, hset⟩ := get_free_block_spec hfs
  have hne0 : h ≠ 0 := by
    intro h0
    rw [h0, hbit0] at hfalse
    cases hfalse
  have hbmne : c2.freeSpace ≠ s.m_blocks.freeSpace := by
    intro heq
    have h2 : (s.m_blocks.freeSpace.set h true)[h]? =
        s.m_blocks.freeSpace[h]? := by rw [← hset, heq]
    rw [List.getElem?_set_self, hfalse] at h2
    · simp at h2
    · exact hlt
  have hrr : b_tree.read_root s =
      Except.ok (h, (⟨h, 0, c2, s.fileLeaf, s.fileNode⟩ :
        b_tree.TreeState α)) := by
    unfold b_tree.read_root
    rw [if_pos hroot, hgf]
  have hkp : b_tree.key_path s k =
      Except.ok (h, (⟨h, 0, c2, s.fileLeaf, s.fileNode⟩ :
        b_tree.TreeState α)) := by
    unfold b_tree.key_path
    rw [hrr]
    rfl
  refine ⟨⟨h, 0, c2, s.fileLeaf, s.fileNode⟩, rfl, ?_, ?_, ?_, hne0,
    by simp [hroot, hne0], hbmne⟩
  · unfold b_tree.count
    rw [hkp]
  · by_cases hidx : b_tree_leaf.index_of (s.fileLeaf h) k =
        b_tree_leaf.degree (s.fileLeaf h)
    · exact ⟨none, by simp [b_tree.try_find, hkp, hidx]⟩
    · exact ⟨some ((s.fileLeaf h).getD
        (b_tree_leaf.index_of (s.fileLeaf h) k) k),
        by simp [b_tree.try_find, hkp, hidx]⟩
  · by_cases hidx : b_tree_leaf.index_of (s.fileLeaf h) k =
        b_tree_leaf.degree (s.fileLeaf h)
    · exact ⟨Except.error "Value with given key not found",
        by simp [b_tree.find, b_tree.try_find, hkp, hidx]⟩
    · exact ⟨Except.ok ((s.fileLeaf h).getD
        (b_tree_leaf.index_of (s.fileLeaf h) k) k),
        by simp [b_tree.find, b_tree.try_find, hkp, hidx]⟩

/-- Witness for C9: a concrete empty tree over `Nat` with a fresh 8-bit
bitmap; the lookup for key 5 installs block 1 as the root. -/
theorem C9_lookups_allocate_root_witness :
    ∃ s1 : b_tree.TreeState Nat,
      s1 = ⟨1, 0, ⟨true, (free_space_block.initial 8).set 1 true⟩,
        fun _ => [], fun _ => ([], [])⟩ ∧
      b_tree.count 5
          (⟨0, 0, ⟨true, free_space_block.initial 8⟩,
            fun _ => [], fun _ => ([], [])⟩ : b_tree.TreeState Nat) =
        Except.ok (b_tree_leaf.count (s1.fileLeaf 1) 5, s1) ∧
      (∃ r, b_tree.try_find 5
          (⟨0, 0, ⟨true, free_space_block.initial 8⟩,
            fun _ => [], fun _ => ([], [])⟩ : b_tree.TreeState Nat) =
        Except.ok (r, s1)) ∧
      (∃ r, b_tree.find 5
          (⟨0, 0, ⟨true, free_space_block.initial 8⟩,
            fun _ => [], fun _ => ([], [])⟩ : b_tree.TreeState Nat) =
        Except.ok (r, s1)) ∧
      (1 : Nat) ≠ 0 ∧
      s1.m_root ≠ (⟨0, 0, ⟨true, free_space_block.initial 8⟩,
        fun _ => [], fun _ => ([], [])⟩ : b_tree.TreeState Nat).m_root ∧
      (⟨true, (free_space_block.initial 8).set 1 true⟩ :
          block_collection.Collection).freeSpace ≠
        (⟨true, free_space_block.initial 8⟩ :
          block_collection.Collection).freeSpace := by
  have hgf : block_collection.get_free_block
      (⟨true, free_space_block.initial 8⟩ : block_collection.Collection) =
      Except.ok (1, (⟨true, (free_space_block.initial 8).set 1 true⟩ :
        block_collection.Collection)) := by rfl
  exact C9_lookups_allocate_root 5
    ⟨0, 0, ⟨true, free_space_block.initial 8⟩,
      fun _ => [], fun _ => ([], [])⟩ rfl (by decide) hgf

/-! ## Claims C2 and C3: leaf occupancy after a split -/

/-- Claim C3, evaluated at the failing input: under the legal parameters
`leafMin = 2, leafMax = 3` (accepted by `verify_parameters`),
`b_tree_leaf::split_insert` on the full leaf `[1, 2, 3]` inserting `4`
produces left leaf `[1]`, right leaf `[4, 3, 2]` and pivot `2`.  Parts (a)
(left keys ≤ right keys), (c) (degrees sum to `leafMax + 1`) and the pivot
(smallest key of the right leaf) hold, but the left leaf has degree
`1 < leafMin`, violating part (b) and the occupancy invariant the code's
own `Definition 1` comment states. -/
theorem C3_split_insert_underfull_left :
    Params.legal ⟨2, 3, 2, 3⟩ ∧
    b_tree_leaf.split_insert (α := Nat) ⟨2, 3, 2, 3⟩ [1, 2, 3] 4 =
      ⟨[1], [4, 3, 2], 2⟩ ∧
    b_tree_leaf.degree ([1] : List Nat) + b_tree_leaf.degree [4, 3, 2] =
      3 + 1 ∧
    b_tree_leaf.degree ([1] : List Nat) < (⟨2, 3, 2, 3⟩ : Params).leafMin :=
  ⟨by decide, rfl, rfl, by decide⟩

/-- Claim C2, evaluated at the failing input: under the legal parameters
`nodeMin = 2, nodeMax = 3, leafMin = 2, leafMax = 3`, inserting the
sequence `1, 2, 3, 4` into a fresh empty tree leaves a non-root leaf of
degree `1 < leafMin`: the fourth insert splits the full root leaf
`[1, 2, 3]` into `[1]` and `[4, 3, 2]` under a new internal root.  The
occupancy invariant claimed for every insert/erase-reachable tree fails on
this insert-only sequence. -/
theorem C2_insert_reaches_underfull_leaf :
    Params.legal ⟨2, 3, 2, 3⟩ ∧
    b_tree.insertAll (α := Nat) ⟨2, 3, 2, 3⟩ [1, 2, 3, 4] =
      BTree.node [BTree.leaf [1], BTree.leaf [4, 3, 2]] [2] ∧
    b_tree_leaf.degree ([1] : List Nat) < (⟨2, 3, 2, 3⟩ : Params).leafMin :=
  ⟨by decide, rfl, by decide⟩

/-! ## Claim C4: internal-node split -/

/-- Counterexample to claim C4 as stated, at two concrete inputs.  With
`nodeMax = 4` (legal parameters `(2, 4, 2, 4)`), splitting a full internal
node gives the left node `⌈nodeMax / 2⌉ = 2` keys — not
`⌈(nodeMax + 1) / 2⌉ = 3` as claimed (the loop bound is
`in · 2 < keys.size()` with `keys.size() = nodeMax`).  With `nodeMax = 3,
nodeMin = 2` (legal parameters `(2, 3, 2, 3)`), the right node receives
only `1 < nodeMin` children, so the claimed occupancy of both outputs also
fails. -/
theorem C4_counterexample :
    Params.legal ⟨2, 4, 2, 4⟩ ∧
    (b_tree_block.split_insert (α := Nat) (β := Nat)
      [101, 102, 103, 104] [10, 20, 30] 0 5 201 202).left.keys.length = 2 ∧
    ((4 : Nat) + 1 + 1) / 2 = 3 ∧ (2 : Nat) ≠ 3 ∧
    Params.legal ⟨2, 3, 2, 3⟩ ∧
    (b_tree_block.split_insert (α := Nat) (β := Nat)
      [101, 102, 103] [10, 20] 0 5 201 202).right.children.length = 1 ∧
    1 < (⟨2, 3, 2, 3⟩ : Params).nodeMin := by
  refine ⟨by decide, rfl, by decide, by decide, by decide, rfl, by decide⟩

/-- Amended claim C4: for every full internal node (`degree = nodeMax`,
hence `nodeMax − 1` keys) and every inserted separator with its two child
handles, `split_insert` splits the combined sequence of `nodeMax` keys and
`nodeMax + 1` children so that the left node receives exactly
`⌈nodeMax / 2⌉` keys (and one more child), the median key is returned and
placed in neither output (the combined key sequence is exactly
`left.keys ++ [mid] ++ right.keys`), the combined child sequence is exactly
`left.children ++ right.children`, the left node always has at least
`nodeMin` children, and the right node — which gets `⌊nodeMax / 2⌋`
children — has at least `nodeMin` children whenever
`nodeMin ≤ ⌊nodeMax / 2⌋` (true for even `nodeMax`; for odd `nodeMax` with
`nodeMin = (nodeMax + 1) / 2` it fails). -/
theorem C4_split_insert_shape {β : Type} (p : Params) (hp : p.legal)
    (ch : List β) (ks : List α) (i : Nat) (k : α) (l r : β)
    (hch : ch.length = p.nodeMax) (hks : ks.length + 1 = p.nodeMax)
    (hi : i ≤ ks.length) :
    (b_tree_block.split_insert ch ks i k l r).left.keys.length =
      (p.nodeMax + 1) / 2 ∧
    (b_tree_block.split_insert ch ks i k l r).left.children.length =
      (p.nodeMax + 1) / 2 + 1 ∧
    (b_tree_block.split_insert ch ks i k l r).right.children.length =
      p.nodeMax / 2 ∧
    ks.take i ++ [k] ++ ks.drop i =
      (b_tree_block.split_insert ch ks i k l r).left.keys ++
        [(b_tree_block.split_insert ch ks i k l r).mid] ++
        (b_tree_block.split_insert ch ks i k l r).right.keys ∧
    ch.take i ++ [l, r] ++ ch.drop (i + 1) =
      (b_tree_block.split_insert ch ks i k l r).left.children ++
        (b_tree_block.split_insert ch ks i k l r).right.children ∧
    p.nodeMin ≤
      (b_tree_block.split_insert ch ks i k l r).left.children.length ∧
    (p.nodeMin ≤ p.nodeMax / 2 →
      p.nodeMin ≤
        (b_tree_block.split_insert ch ks i k l r).right.children.length) := by
  obtain ⟨hn2, hnmax, -, -⟩ := hp
  have hmax3 : 3 ≤ p.nodeMax := by omega
  unfold b_tree_block.split_insert
  have hkslen : (ks.take i ++ [k] ++ ks.drop i).length = p.nodeMax := by
    simp [List.length_take, List.length_drop]
    omega
  have hchlen : (ch.take i ++ [l, r] ++ ch.drop (i + 1)).length =
      p.nodeMax + 1 := by
    simp [List.length_take, List.length_drop]
    omega
  set ks' := ks.take i ++ [k] ++ ks.drop i with hksdef
  set ch' := ch.take i ++ [l, r] ++ ch.drop (i + 1) with hchdef
  set h := (ks'.length + 1) / 2 with hdef
  have hhlt : h < ks'.length := by rw [hkslen]; omega
  have hgd : ks'.getD h k = ks'.get ⟨h, hhlt⟩ := by
    rw [List.getD_eq_getElem?_getD, List.getElem?_eq_getElem hhlt]
    rfl
  refine ⟨?_, ?_, ?_, ?_, ?_, ?_, ?_⟩
  · simp [List.length_take]
    omega
  · simp [List.length_take]
    omega
  · simp [List.length_drop]
    omega
  · show ks' = ks'.take h ++ [ks'.getD h k] ++ ks'.drop (h + 1)
    rw [hgd]
    have hsplit := List.take_append_drop h ks'
    have hcons : ks'.get ⟨h, hhlt⟩ :: ks'.drop (h + 1) = ks'.drop h := by
      rw [List.get_eq_getElem]
      exact List.getElem_cons_drop ks' h hhlt
    calc ks' = ks'.take h ++ ks'.drop h := (List.take_append_drop h ks').symm
      _ = ks'.take h ++ (ks'.get ⟨h, hhlt⟩ :: ks'.drop (h + 1)) := by
          rw [hcons]
      _ = ks'.take h ++ [ks'.get ⟨h, hhlt⟩] ++ ks'.drop (h + 1) := by
          simp
  · exact (List.take_append_drop (h + 1) ch').symm
  · simp [List.length_take]
    omega
  · intro hmin
    simp [List.length_drop]
    omega

/-- Witness for the amended C4 at the concrete even-fanout input
(`nodeMax = 4`). -/
theorem C4_split_insert_shape_witness :
    Params.legal ⟨2, 4, 2, 4⟩ ∧
    ([101, 102, 103, 104] : List Nat).length = 4 ∧
    ([10, 20, 30] : List Nat).length + 1 = 4 ∧ (0 : Nat) ≤ 3 ∧
    (b_tree_block.split_insert (α := Nat) (β := Nat)
      [101, 102, 103, 104] [10, 20, 30] 0 5 201 202).left.keys.length =
      (4 + 1) / 2 := by
  refine ⟨by decide, by decide, by decide, by decide, ?_⟩
  exact (C4_split_insert_shape ⟨2, 4, 2, 4⟩ (by decide)
    [101, 102, 103, 104] [10, 20, 30] 0 5 201 202 rfl rfl
    (by decide)).1

/-! ## Claim C5: leaf fuse -/

/-- Claim C5: for adjacent leaves `(left, right)`, `fuse_with` merges —
returning `Merge` after appending all of `right`'s values onto `left` —
exactly when `left.degree + right.degree ≤ leafMax`; otherwise it returns
`Share` after redistributing the combined values (a permutation of the
originals) so that both leaves have degree at least `leafMin`, and the
returned pivot key is the smallest key then in the right leaf. -/
theorem C5_fuse_with_merge_share (p : Params) (hp : p.legal)
    (L R : List α) :
    (b_tree_leaf.degree L + b_tree_leaf.degree R ≤ p.leafMax →
      b_tree_leaf.fuse_with p L R = b_tree_leaf.FuseResult.merge (L ++ R)) ∧
    (p.leafMax < b_tree_leaf.degree L + b_tree_leaf.degree R →
      ∃ L2 R2 m, b_tree_leaf.fuse_with p L R =
          b_tree_leaf.FuseResult.share L2 R2 m ∧
        p.leafMin ≤ b_tree_leaf.degree L2 ∧
        p.leafMin ≤ b_tree_leaf.degree R2 ∧
        List.Perm (L2 ++ R2) (L ++ R) ∧
        m ∈ R2 ∧ ∀ y ∈ R2, m ≤ y) := by
  obtain ⟨-, -, hl2, hlmax⟩ := hp
  constructor
  · intro hle
    unfold b_tree_leaf.fuse_with
    rw [if_pos hle]
  · intro hgt
    have hgt2 : p.leafMax < L.length + R.length := hgt
    have hall : (sortVals (L ++ R)).length = L.length + R.length := by
      rw [(sortVals_perm (L ++ R)).length_eq, List.length_append]
    have hdropne : (sortVals (L ++ R)).drop
        ((L.length + R.length) / 2) ≠ [] := by
      intro hnil
      have := List.drop_eq_nil_iff.1 hnil
      omega
    rcases hd : (sortVals (L ++ R)).drop
        ((L.length + R.length) / 2) with _ | ⟨m, rest⟩
    · exact absurd hd hdropne
    · have heq : b_tree_leaf.fuse_with p L R =
          b_tree_leaf.FuseResult.share
            ((sortVals (L ++ R)).take ((L.length + R.length) / 2))
            (m :: rest) m := by
        unfold b_tree_leaf.fuse_with b_tree_leaf.degree
        rw [if_neg (by omega)]
        simp only [hd]
      have hrl : (m :: rest).length =
          (sortVals (L ++ R)).length - (L.length + R.length) / 2 := by
        rw [← hd, List.length_drop]
      refine ⟨_, m :: rest, m, heq, ?_, ?_, ?_,
        List.mem_cons_self m rest, ?_⟩
      · show p.leafMin ≤
          ((sortVals (L ++ R)).take ((L.length + R.length) / 2)).length
        rw [List.length_take]
        omega
      · show p.leafMin ≤ (m :: rest).length
        omega
      · rw [← hd, List.take_append_drop]
        exact sortVals_perm (L ++ R)
      · have hsorted : List.Sorted (· ≤ ·) ((sortVals (L ++ R)).drop
            ((L.length + R.length) / 2)) :=
          List.Pairwise.sublist (List.drop_sublist _ _)
            (sortVals_sorted (L ++ R))
        rw [hd] at hsorted
        intro y hy
        rcases List.mem_cons.1 hy with rfl | hy
        · exact le_refl y
        · exact List.rel_of_sorted_cons hsorted y hy

/-- Witness for C5 at the concrete legal parameters `(2, 3, 2, 3)` with the
leaves `[5, 7]` and `[9, 2]` (share case: total `4 > leafMax = 3`). -/
theorem C5_fuse_with_merge_share_witness :
    Params.legal ⟨2, 3, 2, 3⟩ ∧
    ((3 : Nat) < b_tree_leaf.degree ([5, 7] : List Nat) +
        b_tree_leaf.degree ([9, 2] : List Nat) →
      ∃ L2 R2 m, b_tree_leaf.fuse_with (⟨2, 3, 2, 3⟩ : Params)
          ([5, 7] : List Nat) [9, 2] =
          b_tree_leaf.FuseResult.share L2 R2 m ∧
        (⟨2, 3, 2, 3⟩ : Params).leafMin ≤ b_tree_leaf.degree L2 ∧
        (⟨2, 3, 2, 3⟩ : Params).leafMin ≤ b_tree_leaf.degree R2 ∧
        List.Perm (L2 ++ R2) ([5, 7] ++ [9, 2]) ∧
        m ∈ R2 ∧ ∀ y ∈ R2, m ≤ y) :=
  ⟨by decide,
    (C5_fuse_with_merge_share ⟨2, 3, 2, 3⟩ (by decide) [5, 7] [9, 2]).2⟩

/-! ## Claim C1: bound and ordering machinery -/

theorem lbOk_trans {lo : Option α} {k x : α} (h1 : b_tree.lbOk lo k)
    (h2 : k ≤ x) : b_tree.lbOk lo x := by
  cases lo with
  | none => trivial
  | some l => exact le_trans h1 h2

theorem ubOk_trans {hi : Option α} {k x : α} (h1 : x ≤ k)
    (h2 : b_tree.ubOk k hi) : b_tree.ubOk x hi := by
  cases hi with
  | none => trivial
  | some u => exact le_trans h1 h2

theorem bndchain_length :
    ∀ (ks : List α) (ch : List (BTree α)) (lo hi : Option α),
    b_tree.BndChain lo hi ch ks → ch.length = ks.length + 1 := by
  intro ks
  induction ks with
  | nil =>
    intro ch lo hi h
    match ch with
    | [] => simp [b_tree.BndChain] at h
    | [c] => rfl
    | c1 :: c2 :: cs => simp [b_tree.BndChain] at h
  | cons k ks ih =>
    intro ch lo hi h
    match ch with
    | [] => simp [b_tree.BndChain] at h
    | c :: cs =>
      simp only [b_tree.BndChain] at h
      have := ih cs (some k) hi h.2.2.2
      simp [this]

theorem dumpChildren_append (l1 l2 : List (BTree α)) :
    b_tree.dumpChildren (l1 ++ l2) =
      b_tree.dumpChildren l1 ++ b_tree.dumpChildren l2 := by
  induction l1 with
  | nil => simp [b_tree.dumpChildren]
  | cons c cs ih => simp [b_tree.dumpChildren, ih]

theorem treeListAll_append (l1 l2 : List (BTree α)) :
    b_tree.treeListAll (l1 ++ l2) =
      b_tree.treeListAll l1 ++ b_tree.treeListAll l2 := by
  induction l1 with
  | nil => simp [b_tree.treeListAll]
  | cons c cs ih => simp [b_tree.treeListAll, ih]

theorem dump_perm_treeList (t : BTree α) :
    List.Perm (b_tree.in_order_dump t) (b_tree.treeList t) := by
  refine b_tree.btreeInd (motive := fun t =>
    List.Perm (b_tree.in_order_dump t) (b_tree.treeList t)) ?_ ?_ t
  · intro vs
    simpa [b_tree.in_order_dump, b_tree.treeList] using sortVals_perm vs
  · intro ch ks ih
    show List.Perm (b_tree.dumpChildren ch) (b_tree.treeListAll ch)
    induction ch with
    | nil => simp [b_tree.dumpChildren, b_tree.treeListAll]
    | cons c cs ih2 =>
      simp only [b_tree.dumpChildren, b_tree.treeListAll]
      exact (ih c (List.mem_cons_self c cs)).append
        (ih2 (fun c2 hc2 => ih c2 (List.mem_cons_of_mem c hc2)))

theorem chain_mem_bounds :
    ∀ (ks : List α) (ch : List (BTree α)) (lo hi : Option α),
    b_tree.BndChain lo hi ch ks →
    (∀ c ∈ ch, ∀ lo2 hi2 : Option α, b_tree.Bnd lo2 hi2 c →
      ∀ x ∈ b_tree.treeList c, b_tree.lbOk lo2 x ∧ b_tree.ubOk x hi2) →
    ∀ x ∈ b_tree.treeListAll ch, b_tree.lbOk lo x ∧ b_tree.ubOk x hi := by
  intro ks
  induction ks with
  | nil =>
    intro ch lo hi hb ih x hx
    match ch with
    | [] => simp [b_tree.BndChain] at hb
    | [c] =>
      simp only [b_tree.treeListAll, List.append_nil] at hx
      exact ih c (List.mem_cons_self c []) lo hi hb x hx
    | c1 :: c2 :: cs => simp [b_tree.BndChain] at hb
  | cons k ks ih2 =>
    intro ch lo hi hb ih x hx
    match ch with
    | [] => simp [b_tree.BndChain] at hb
    | c :: cs =>
      simp only [b_tree.BndChain] at hb
      obtain ⟨hklb, hkub, hc, htail⟩ := hb
      simp only [b_tree.treeListAll] at hx
      rcases List.mem_append.1 hx with hx | hx
      · have h2 := ih c (List.mem_cons_self c cs) lo (some k) hc x hx
        exact ⟨h2.1, ubOk_trans h2.2 hkub⟩
      · have h2 := ih2 cs (some k) hi htail
          (fun c2 hc2 => ih c2 (List.mem_cons_of_mem c hc2)) x hx
        exact ⟨lbOk_trans hklb h2.1, h2.2⟩

theorem bnd_treeList_mem (t : BTree α) :
    ∀ lo hi : Option α, b_tree.Bnd lo hi t →
    ∀ x ∈ b_tree.treeList t, b_tree.lbOk lo x ∧ b_tree.ubOk x hi := by
  refine b_tree.btreeInd (motive := fun t => ∀ lo hi : Option α,
    b_tree.Bnd lo hi t →
    ∀ x ∈ b_tree.treeList t, b_tree.lbOk lo x ∧ b_tree.ubOk x hi) ?_ ?_ t
  · intro vs lo hi hb x hx
    exact hb x hx
  · intro ch ks ih lo hi hb
    simp only [b_tree.Bnd] at hb
    exact chain_mem_bounds ks ch lo hi hb ih

theorem chain_dump_sorted :
    ∀ (ks : List α) (ch : List (BTree α)) (lo hi : Option α),
    b_tree.BndChain lo hi ch ks →
    (∀ c ∈ ch, ∀ lo2 hi2 : Option α, b_tree.Bnd lo2 hi2 c →
      List.Sorted (· ≤ ·) (b_tree.in_order_dump c)) →
    List.Sorted (· ≤ ·) (b_tree.dumpChildren ch) := by
  intro ks
  induction ks with
  | nil =>
    intro ch lo hi hb ih
    match ch with
    | [] => simp [b_tree.BndChain] at hb
    | [c] =>
      simp only [b_tree.dumpChildren, List.append_nil]
      exact ih c (List.mem_cons_self c []) lo hi hb
    | c1 :: c2 :: cs => simp [b_tree.BndChain] at hb
  | cons k ks ih2 =>
    intro ch lo hi hb ih
    match ch with
    | [] => simp [b_tree.BndChain] at hb
    | c :: cs =>
      simp only [b_tree.BndChain] at hb
      obtain ⟨hklb, hkub, hc, htail⟩ := hb
      simp only [b_tree.dumpChildren]
      refine List.pairwise_append.2
        ⟨ih c (List.mem_cons_self c cs) lo (some k) hc,
        ih2 cs (some k) hi htail
          (fun c2 hc2 => ih c2 (List.mem_cons_of_mem c hc2)), ?_⟩
      intro x hx y hy
      have hxle : x ≤ k :=
        (bnd_treeList_mem c lo (some k) hc x
          ((dump_perm_treeList c).mem_iff.1 hx)).2
      have hydump : y ∈ b_tree.treeListAll cs := by
        have : y ∈ b_tree.treeList (BTree.node cs ks) :=
          (dump_perm_treeList (BTree.node cs ks)).mem_iff.1
            (by simpa [b_tree.in_order_dump] using hy)
        simpa [b_tree.treeList] using this
      have hyge := bnd_treeList_mem (BTree.node cs ks) (some k) hi
        (by simpa [b_tree.Bnd] using htail) y
        (by simpa [b_tree.treeList] using hydump)
      exact le_trans hxle hyge.1

theorem bnd_dump_sorted (t : BTree α) :
    ∀ lo hi : Option α, b_tree.Bnd lo hi t →
    List.Sorted (· ≤ ·) (b_tree.in_order_dump t) := by
  refine b_tree.btreeInd (motive := fun t => ∀ lo hi : Option α,
    b_tree.Bnd lo hi t →
    List.Sorted (· ≤ ·) (b_tree.in_order_dump t)) ?_ ?_ t
  · intro vs lo hi _
    exact sortVals_sorted vs
  · intro ch ks ih lo hi hb
    simp only [b_tree.Bnd] at hb
    exact chain_dump_sorted ks ch lo hi hb
      (fun c hc lo2 hi2 hb2 => ih c hc lo2 hi2 hb2)

/-! ## Claim C1: leaf split specification -/

theorem take_insert_drop_perm (A : List α) (s : Nat) (v : α) :
    List.Perm ((A.take s ++ [v]) ++ A.drop s) (v :: A) := by
  rw [List.append_assoc]
  have h1 : List.Perm (A.take s ++ ([v] ++ A.drop s))
      (v :: (A.take s ++ A.drop s)) := List.perm_middle
  rw [List.take_append_drop] at h1
  exact h1

theorem getD_split (A : List α) (s : Nat) (d : α) (hs : s < A.length) :
    A = A.take s ++ [A.getD s d] ++ A.drop (s + 1) := by
  rw [List.getD_eq_getElem?_getD A s d, List.getElem?_eq_getElem hs]
  have hcons : A[s] :: A.drop (s + 1) = A.drop s :=
    List.getElem_cons_drop A s hs
  calc A = A.take s ++ A.drop s := (List.take_append_drop s A).symm
    _ = A.take s ++ (A[s] :: A.drop (s + 1)) := by rw [hcons]
    _ = A.take s ++ [A[s]] ++ A.drop (s + 1) := by simp

theorem mem_drop_succ_of {A : List α} {s : Nat} {y : α}
    (hs : s < A.length) (hy : y ∈ A.drop (s + 1)) : y ∈ A.drop s := by
  rw [← List.getElem_cons_drop A s hs]
  exact List.mem_cons_of_mem _ hy

/-- Value of `split_insert` in the `insertionPoint < splitPoint` branch. -/
theorem split_insert_eq1 (p : Params) (vs : List α) (v : α)
    (h1 : (vs.filter (fun x => decide (x < v))).length < p.leafMax / 2) :
    b_tree_leaf.split_insert p vs v =
      ⟨((vs.filter (fun x => decide (x < v))) ++
          sortVals (vs.filter (fun x => !decide (x < v)))).take
          (p.leafMax / 2) ++ [v],
        ((vs.filter (fun x => decide (x < v))) ++
          sortVals (vs.filter (fun x => !decide (x < v)))).drop
          (p.leafMax / 2),
        minVal v (((vs.filter (fun x => decide (x < v))) ++
          sortVals (vs.filter (fun x => !decide (x < v)))).drop
          (p.leafMax / 2))⟩ := by
  unfold b_tree_leaf.split_insert
  simp only [if_pos h1]

/-- Value of `split_insert` in the `insertionPoint > splitPoint` branch. -/
theorem split_insert_eq2 (p : Params) (vs : List α) (v : α)
    (h2 : p.leafMax / 2 < (vs.filter (fun x => decide (x < v))).length) :
    b_tree_leaf.split_insert p vs v =
      ⟨(sortVals (vs.filter (fun x => decide (x < v))) ++
          (vs.filter (fun x => !decide (x < v)))).take (p.leafMax / 2),
        (v :: (sortVals (vs.filter (fun x => decide (x < v))) ++
          (vs.filter (fun x => !decide (x < v)))).drop (p.leafMax / 2 + 1))
          ++ [(sortVals (vs.filter (fun x => decide (x < v))) ++
            (vs.filter (fun x => !decide (x < v)))).getD (p.leafMax / 2) v],
        minVal v ((v :: (sortVals (vs.filter (fun x => decide (x < v))) ++
          (vs.filter (fun x => !decide (x < v)))).drop (p.leafMax / 2 + 1))
          ++ [(sortVals (vs.filter (fun x => decide (x < v))) ++
            (vs.filter (fun x => !decide (x < v)))).getD
            (p.leafMax / 2) v])⟩ := by
  unfold b_tree_leaf.split_insert
  simp only [if_neg (by omega : ¬ (vs.filter
    (fun x => decide (x < v))).length < p.leafMax / 2), if_pos h2]

/-- Value of `split_insert` in the `insertionPoint = splitPoint` branch. -/
theorem split_insert_eq3 (p : Params) (vs : List α) (v : α)
    (h3 : (vs.filter (fun x => decide (x < v))).length = p.leafMax / 2) :
    b_tree_leaf.split_insert p vs v =
      ⟨((vs.filter (fun x => decide (x < v))) ++
          (vs.filter (fun x => !decide (x < v)))).take (p.leafMax / 2)
          ++ [v],
        ((vs.filter (fun x => decide (x < v))) ++
          (vs.filter (fun x => !decide (x < v)))).drop (p.leafMax / 2),
        minVal v (((vs.filter (fun x => decide (x < v))) ++
          (vs.filter (fun x => !decide (x < v)))).drop (p.leafMax / 2))⟩ := by
  unfold b_tree_leaf.split_insert
  simp only [if_neg (by omega : ¬ (vs.filter
      (fun x => decide (x < v))).length < p.leafMax / 2),
    if_neg (by omega : ¬ p.leafMax / 2 < (vs.filter
      (fun x => decide (x < v))).length)]

/-- Correctness of `b_tree_leaf::split_insert` on a full leaf: the two
leaves together hold the old values plus the inserted one, every left value
is at most every right value, the right leaf is nonempty, and the returned
pivot is the minimum of the right leaf. -/
theorem split_insert_spec (p : Params) (vs : List α) (v : α)
    (hlen : vs.length = p.leafMax) (hmax : 1 ≤ p.leafMax) :
    List.Perm ((b_tree_leaf.split_insert p vs v).left ++
      (b_tree_leaf.split_insert p vs v).right) (v :: vs) ∧
    (∀ x ∈ (b_tree_leaf.split_insert p vs v).left,
      ∀ y ∈ (b_tree_leaf.split_insert p vs v).right, x ≤ y) ∧
    (b_tree_leaf.split_insert p vs v).right ≠ [] ∧
    (b_tree_leaf.split_insert p vs v).pivot =
      minVal v (b_tree_leaf.split_insert p vs v).right := by
  set lt := vs.filter (fun x => decide (x < v)) with hltdef
  set ge := vs.filter (fun x => !decide (x < v)) with hgedef
  have hlt_mem : ∀ x ∈ lt, x < v := fun x hx => by
    have := (List.mem_filter.1 hx).2
    simpa using this
  have hge_mem : ∀ y ∈ ge, v ≤ y := fun y hy => by
    have h2 := (List.mem_filter.1 hy).2
    simp only [Bool.not_eq_eq_eq_not, Bool.not_true,
      decide_eq_false_iff_not] at h2
    exact le_of_not_lt h2
  have hperm : List.Perm (lt ++ ge) vs := List.filter_append_perm _ vs
  have hlg : lt.length + ge.length = vs.length := by
    have h2 := hperm.length_eq
    simpa using h2
  have hslen : (sortVals ge).length = ge.length := (sortVals_perm ge).length_eq
  have hslen2 : (sortVals lt).length = lt.length :=
    (sortVals_perm lt).length_eq
  rcases Nat.lt_trichotomy lt.length (p.leafMax / 2) with h1 | h3 | h2
  · rw [split_insert_eq1 p vs v h1]
    set A := lt ++ sortVals ge with hAdef
    set s := p.leafMax / 2 with hsdef
    have hA : A.length = vs.length := by
      simp only [hAdef, List.length_append, hslen]
      omega
    have hAperm : List.Perm A vs :=
      ((sortVals_perm ge).append_left lt).trans hperm
    have htake : A.take s = lt ++ (sortVals ge).take (s - lt.length) := by
      rw [hAdef, List.take_append_eq_append_take,
        List.take_of_length_le (le_of_lt h1)]
    have hdrop : A.drop s = (sortVals ge).drop (s - lt.length) := by
      rw [hAdef, List.drop_append_eq_append_drop,
        List.drop_eq_nil_of_le (le_of_lt h1)]
      simp
    refine ⟨?_, ?_, ?_, rfl⟩
    · exact (take_insert_drop_perm A s v).trans (hAperm.cons v)
    · intro x hx y hy
      have hyge : y ∈ sortVals ge := by
        rw [hdrop] at hy
        exact (List.drop_sublist _ _).mem hy
      have hyv : v ≤ y := hge_mem y (mem_sortVals.1 hyge)
      rcases List.mem_append.1 hx with hx | hx
      · rw [htake] at hx
        rcases List.mem_append.1 hx with hx | hx
        · exact le_trans (le_of_lt (hlt_mem x hx)) hyv
        · rw [hdrop] at hy
          exact sorted_take_le_drop (sortVals_sorted ge) (s - lt.length)
            x hx y hy
      · rcases List.mem_singleton.1 hx with rfl
        exact hyv
    · intro hnil
      have h2 := List.drop_eq_nil_iff.1 hnil
      rw [hA, hlen] at h2
      omega
  · rw [split_insert_eq3 p vs v h3]
    set A := lt ++ ge with hAdef
    set s := p.leafMax / 2 with hsdef
    have hA : A.length = vs.length := by
      simp only [hAdef, List.length_append]
      omega
    have htake : A.take s = lt := by
      rw [hAdef, List.take_append_eq_append_take,
        List.take_of_length_le (le_of_eq h3), h3]
      simp
    have hdrop : A.drop s = ge := by
      rw [hAdef, List.drop_append_eq_append_drop,
        List.drop_eq_nil_of_le (le_of_eq h3), h3]
      simp
    refine ⟨?_, ?_, ?_, rfl⟩
    · exact (take_insert_drop_perm A s v).trans (hperm.cons v)
    · intro x hx y hy
      rw [hdrop] at hy
      have hyv : v ≤ y := hge_mem y hy
      rcases List.mem_append.1 hx with hx | hx
      · rw [htake] at hx
        exact le_trans (le_of_lt (hlt_mem x hx)) hyv
      · rcases List.mem_singleton.1 hx with rfl
        exact hyv
    · intro hnil
      have h4 := List.drop_eq_nil_iff.1 hnil
      rw [hA, hlen] at h4
      omega
  · rw [split_insert_eq2 p vs v h2]
    set A := sortVals lt ++ ge with hAdef
    set s := p.leafMax / 2 with hsdef
    have hA : A.length = vs.length := by
      simp only [hAdef, List.length_append, hslen2]
      omega
    have hs_lt : s < (sortVals lt).length := by rw [hslen2]; exact h2
    have hAperm : List.Perm A vs :=
      ((sortVals_perm lt).append (List.Perm.refl ge)).trans hperm
    have htake : A.take s = (sortVals lt).take s := by
      rw [hAdef, List.take_append_eq_append_take]
      have h4 : s - (sortVals lt).length = 0 := by omega
      rw [h4]
      simp
    have hdrop : A.drop (s + 1) = (sortVals lt).drop (s + 1) ++ ge := by
      rw [hAdef, List.drop_append_eq_append_drop]
      have h4 : s + 1 - (sortVals lt).length = 0 := by omega
      rw [h4]
      simp
    have hw : A.getD s v = (sortVals lt).getD s v := by
      rw [List.getD_eq_getElem?_getD, List.getD_eq_getElem?_getD, hAdef]
      have h4 : (sortVals lt ++ ge)[s]? = (sortVals lt)[s]? := by
        simp [List.getElem?_append, hs_lt]
      rw [h4]
    have hwmem : A.getD s v ∈ (sortVals lt).drop s := by
      rw [hw, List.getD_eq_getElem?_getD, List.getElem?_eq_getElem hs_lt]
      rw [← List.getElem_cons_drop (sortVals lt) s hs_lt]
      exact List.mem_cons_self _ _
    refine ⟨?_, ?_, ?_, rfl⟩
    · have hstep1 : A.take s ++ ((v :: A.drop (s + 1)) ++ [A.getD s v]) =
          A.take s ++ (v :: (A.drop (s + 1) ++ [A.getD s v])) := by simp
      have hstep2 : List.Perm
          (A.take s ++ (v :: (A.drop (s + 1) ++ [A.getD s v])))
          (v :: (A.take s ++ (A.drop (s + 1) ++ [A.getD s v]))) :=
        List.perm_middle
      have hstep3 : List.Perm
          (v :: (A.take s ++ (A.drop (s + 1) ++ [A.getD s v])))
          (v :: (A.take s ++ ([A.getD s v] ++ A.drop (s + 1)))) :=
        ((List.perm_append_comm).append_left (A.take s)).cons v
      have hstep4 : A.take s ++ ([A.getD s v] ++ A.drop (s + 1)) = A := by
        rw [← List.append_assoc]
        exact (getD_split A s v (by omega)).symm
      rw [hstep1]
      refine (hstep2.trans (hstep3.trans ?_)).trans (hAperm.cons v)
      rw [hstep4]
    · intro x hx y hy
      rw [htake] at hx
      have hxlt : x ∈ sortVals lt := (List.take_sublist _ _).mem hx
      have hxv : x < v := hlt_mem x (mem_sortVals.1 hxlt)
      rcases List.mem_append.1 hy with hy | hy
      · rcases List.mem_cons.1 hy with rfl | hy
        · exact le_of_lt hxv
        · rw [hdrop] at hy
          rcases List.mem_append.1 hy with hy | hy
          · exact sorted_take_le_drop (sortVals_sorted lt) s x hx y
              (mem_drop_succ_of hs_lt hy)
          · exact le_trans (le_of_lt hxv) (hge_mem y hy)
      · rcases List.mem_singleton.1 hy with rfl
        rw [hw]
        exact sorted_take_le_drop (sortVals_sorted lt) s x hx _
          (by rw [← hw]; exact hwmem)
    · simp


/-- Derived facts about the split pivot: it belongs to the right leaf, is a
lower bound for the right leaf and an upper bound for the left leaf. -/
theorem split_insert_pivot_spec (p : Params) (vs : List α) (v : α)
    (hlen : vs.length = p.leafMax) (hmax : 1 ≤ p.leafMax) :
    (b_tree_leaf.split_insert p vs v).pivot ∈
      (b_tree_leaf.split_insert p vs v).right ∧
    (∀ y ∈ (b_tree_leaf.split_insert p vs v).right,
      (b_tree_leaf.split_insert p vs v).pivot ≤ y) ∧
    (∀ x ∈ (b_tree_leaf.split_insert p vs v).left,
      x ≤ (b_tree_leaf.split_insert p vs v).pivot) := by
  obtain ⟨hperm, hcross, hne, hpiv⟩ := split_insert_spec p vs v hlen hmax
  have hmem : (b_tree_leaf.split_insert p vs v).pivot ∈
      (b_tree_leaf.split_insert p vs v).right := by
    rw [hpiv]
    exact minVal_mem v hne
  refine ⟨hmem, ?_, ?_⟩
  · intro y hy
    rw [hpiv]
    exact minVal_le v _ y hy
  · intro x hx
    exact hcross x hx _ hmem

theorem childIndex_cons_pos {v k0 : α} (ks2 : List α) (hv : v < k0) :
    b_tree.childIndex (k0 :: ks2) v = 0 := by
  simp [b_tree.childIndex, List.findIdx_cons, hv]

theorem childIndex_cons_neg {v k0 : α} (ks2 : List α) (hv : ¬ v < k0) :
    b_tree.childIndex (k0 :: ks2) v = b_tree.childIndex ks2 v + 1 := by
  simp [b_tree.childIndex, List.findIdx_cons, hv]

theorem childIndex_le_length (ks : List α) (v : α) :
    b_tree.childIndex ks v ≤ ks.length :=
  List.findIdx_le_length _

/-- Splitting a bounded chain at key position `h`: both halves are bounded
chains separated by key `h`, which lies within the original bounds. -/
theorem chain_split :
    ∀ (ks : List α) (ch : List (BTree α)) (lo hi : Option α) (h : Nat)
      (d : α),
    b_tree.BndChain lo hi ch ks → h < ks.length →
    b_tree.BndChain lo (some (ks.getD h d)) (ch.take (h + 1))
      (ks.take h) ∧
    b_tree.BndChain (some (ks.getD h d)) hi (ch.drop (h + 1))
      (ks.drop (h + 1)) ∧
    b_tree.lbOk lo (ks.getD h d) ∧ b_tree.ubOk (ks.getD h d) hi := by
  intro ks
  induction ks with
  | nil =>
    intro ch lo hi h d hb hh
    exact absurd hh (by simp)
  | cons k0 ks2 ih =>
    intro ch lo hi h d hb hh
    match ch with
    | [] => simp [b_tree.BndChain] at hb
    | c :: cs =>
      simp only [b_tree.BndChain] at hb
      obtain ⟨hklb, hkub, hc, htail⟩ := hb
      match h with
      | 0 =>
        refine ⟨?_, ?_, hklb, hkub⟩
        · simpa [b_tree.BndChain] using hc
        · simpa using htail
      | h2 + 1 =>
        have hh2 : h2 < ks2.length := by
          simpa using hh
        obtain ⟨hleft, hright, hmlb, hmub⟩ :=
          ih cs (some k0) hi h2 d htail hh2
        have hgd : (k0 :: ks2).getD (h2 + 1) d = ks2.getD h2 d := by
          simp [List.getD_cons_succ]
        rw [hgd]
        refine ⟨?_, ?_, lbOk_trans hklb hmlb, hmub⟩
        · show b_tree.BndChain lo (some (ks2.getD h2 d))
            (c :: cs.take (h2 + 1)) (k0 :: ks2.take h2)
          simp only [b_tree.BndChain]
          exact ⟨hklb, hmlb, hc, hleft⟩
        · simpa using hright


/-- One descent-and-rebuild step at an internal node: descending into child
`childIndex ks v` succeeds on a bounded chain, and whatever the child
insert produced can be installed back — a rewritten child via `List.set`
(the `b_tree_block::insert` of a non-split child is not needed), or a split
child by splicing `leftChild, rightChild` and the promoted key into the
child and key arrays (the virtual arrays shared by `b_tree_block::insert`
and `b_tree_block::split_insert`) — preserving the chain bounds and adding
`v` to the stored values. -/
theorem chain_step (p : Params) (v : α) :
    ∀ (ks : List α) (ch : List (BTree α)) (lo hi : Option α),
    b_tree.BndChain lo hi ch ks →
    b_tree.lbOk lo v → b_tree.ubOk v hi →
    (∀ c ∈ ch, ∀ lo2 hi2 : Option α, b_tree.Bnd lo2 hi2 c →
      b_tree.lbOk lo2 v → b_tree.ubOk v hi2 →
      b_tree.InsOk lo2 hi2 (b_tree.insertAux p v c) ∧
      b_tree.InsPerm v c (b_tree.insertAux p v c)) →
    ∃ res, b_tree.insertChild p v ch (b_tree.childIndex ks v) = some res ∧
      (∀ t2, res = InsResult.one t2 →
        b_tree.BndChain lo hi (ch.set (b_tree.childIndex ks v) t2) ks ∧
        List.Perm
          (b_tree.treeListAll (ch.set (b_tree.childIndex ks v) t2))
          (v :: b_tree.treeListAll ch)) ∧
      (∀ l k r, res = InsResult.split l k r →
        b_tree.BndChain lo hi
          (ch.take (b_tree.childIndex ks v) ++ [l, r] ++
            ch.drop (b_tree.childIndex ks v + 1))
          (ks.take (b_tree.childIndex ks v) ++ [k] ++
            ks.drop (b_tree.childIndex ks v)) ∧
        List.Perm (b_tree.treeListAll
            (ch.take (b_tree.childIndex ks v) ++ [l, r] ++
              ch.drop (b_tree.childIndex ks v + 1)))
          (v :: b_tree.treeListAll ch)) := by
  intro ks
  induction ks with
  | nil =>
    intro ch lo hi hb hlov hvhi ih
    match ch with
    | [] => simp [b_tree.BndChain] at hb
    | [c] =>
      have hc : b_tree.Bnd lo hi c := hb
      obtain ⟨hok, hperm⟩ :=
        ih c (List.mem_cons_self c []) lo hi hc hlov hvhi
      refine ⟨b_tree.insertAux p v c, ?_, ?_, ?_⟩
      · show b_tree.insertChild p v [c] 0 = some (b_tree.insertAux p v c)
        simp [b_tree.insertChild]
      · intro t2 ht2
        rw [ht2] at hok hperm
        refine ⟨?_, ?_⟩
        · show b_tree.BndChain lo hi [t2] []
          simpa [b_tree.BndChain] using hok
        · show List.Perm (b_tree.treeListAll [t2])
            (v :: b_tree.treeListAll [c])
          simp only [b_tree.treeListAll, List.append_nil]
          exact hperm
      · intro l k r hlkr
        rw [hlkr] at hok hperm
        obtain ⟨hbl, hbr, hklb, hkub⟩ := hok
        refine ⟨?_, ?_⟩
        · show b_tree.BndChain lo hi [l, r] [k]
          simp only [b_tree.BndChain]
          exact ⟨hklb, hkub, hbl, hbr⟩
        · show List.Perm (b_tree.treeListAll [l, r])
            (v :: b_tree.treeListAll [c])
          simp only [b_tree.treeListAll, List.append_nil]
          exact hperm
    | c1 :: c2 :: cs => simp [b_tree.BndChain] at hb
  | cons k0 ks2 ih2 =>
    intro ch lo hi hb hlov hvhi ih
    match ch with
    | [] => simp [b_tree.BndChain] at hb
    | c :: cs =>
      simp only [b_tree.BndChain] at hb
      obtain ⟨hklb, hkub, hc, htail⟩ := hb
      by_cases hv : v < k0
      · have hci : b_tree.childIndex (k0 :: ks2) v = 0 :=
          childIndex_cons_pos ks2 hv
        obtain ⟨hok, hperm⟩ := ih c (List.mem_cons_self c cs) lo (some k0)
          hc hlov (le_of_lt hv)
        rw [hci]
        refine ⟨b_tree.insertAux p v c, ?_, ?_, ?_⟩
        · show b_tree.insertChild p v (c :: cs) 0 =
            some (b_tree.insertAux p v c)
          simp [b_tree.insertChild]
        · intro t2 ht2
          rw [ht2] at hok hperm
          refine ⟨?_, ?_⟩
          · show b_tree.BndChain lo hi (t2 :: cs) (k0 :: ks2)
            simp only [b_tree.BndChain]
            exact ⟨hklb, hkub, hok, htail⟩
          · show List.Perm (b_tree.treeListAll (t2 :: cs))
              (v :: b_tree.treeListAll (c :: cs))
            simp only [b_tree.treeListAll]
            have h3 : List.Perm
                (b_tree.treeList t2 ++ b_tree.treeListAll cs)
                ((v :: b_tree.treeList c) ++ b_tree.treeListAll cs) :=
              List.Perm.append_right _ hperm
            simpa using h3
        · intro l k r hlkr
          rw [hlkr] at hok hperm
          obtain ⟨hbl, hbr, hklb2, hkub2⟩ := hok
          refine ⟨?_, ?_⟩
          · show b_tree.BndChain lo hi (l :: r :: cs) (k :: k0 :: ks2)
            simp only [b_tree.BndChain]
            exact ⟨hklb2, ubOk_trans hkub2 hkub, hbl, hkub2, hkub, hbr,
              htail⟩
          · show List.Perm (b_tree.treeListAll (l :: r :: cs))
              (v :: b_tree.treeListAll (c :: cs))
            simp only [b_tree.treeListAll]
            have h3 : List.Perm
                ((b_tree.treeList l ++ b_tree.treeList r) ++
                  b_tree.treeListAll cs)
                ((v :: b_tree.treeList c) ++ b_tree.treeListAll cs) :=
              List.Perm.append_right _ hperm
            simpa [List.append_assoc] using h3
      · have hci : b_tree.childIndex (k0 :: ks2) v =
            b_tree.childIndex ks2 v + 1 := childIndex_cons_neg ks2 hv
        have hk0v : b_tree.lbOk (some k0) v := le_of_not_lt hv
        obtain ⟨res, heq, hone, hsplit⟩ := ih2 cs (some k0) hi htail hk0v
          hvhi (fun c2 hc2 lo2 hi2 => ih c2 (List.mem_cons_of_mem c hc2)
            lo2 hi2)
        rw [hci]
        refine ⟨res, ?_, ?_, ?_⟩
        · show b_tree.insertChild p v (c :: cs)
            (b_tree.childIndex ks2 v + 1) = some res
          simpa [b_tree.insertChild] using heq
        · intro t2 ht2
          obtain ⟨hchain, hperm⟩ := hone t2 ht2
          refine ⟨?_, ?_⟩
          · show b_tree.BndChain lo hi
              (c :: cs.set (b_tree.childIndex ks2 v) t2) (k0 :: ks2)
            simp only [b_tree.BndChain]
            exact ⟨hklb, hkub, hc, hchain⟩
          · show List.Perm (b_tree.treeListAll
                (c :: cs.set (b_tree.childIndex ks2 v) t2))
              (v :: b_tree.treeListAll (c :: cs))
            simp only [b_tree.treeListAll]
            have h3 : List.Perm
                (b_tree.treeList c ++ b_tree.treeListAll
                  (cs.set (b_tree.childIndex ks2 v) t2))
                (b_tree.treeList c ++ (v :: b_tree.treeListAll cs)) :=
              List.Perm.append_left _ hperm
            exact h3.trans List.perm_middle
        · intro l k r hlkr
          obtain ⟨hchain, hperm⟩ := hsplit l k r hlkr
          refine ⟨?_, ?_⟩
          · show b_tree.BndChain lo hi
              (c :: (cs.take (b_tree.childIndex ks2 v) ++ [l, r] ++
                cs.drop (b_tree.childIndex ks2 v + 1)))
              (k0 :: (ks2.take (b_tree.childIndex ks2 v) ++ [k] ++
                ks2.drop (b_tree.childIndex ks2 v)))
            simp only [b_tree.BndChain]
            exact ⟨hklb, hkub, hc, hchain⟩
          · show List.Perm (b_tree.treeListAll
                (c :: (cs.take (b_tree.childIndex ks2 v) ++ [l, r] ++
                  cs.drop (b_tree.childIndex ks2 v + 1))))
              (v :: b_tree.treeListAll (c :: cs))
            simp only [b_tree.treeListAll]
            have h3 : List.Perm
                (b_tree.treeList c ++ b_tree.treeListAll
                  (cs.take (b_tree.childIndex ks2 v) ++ [l, r] ++
                    cs.drop (b_tree.childIndex ks2 v + 1)))
                (b_tree.treeList c ++ (v :: b_tree.treeListAll cs)) :=
              List.Perm.append_left _ hperm
            exact h3.trans List.perm_middle


/-- Main correctness lemma for one `b_tree::insert` pass below the root:
on a bounded subtree, inserting `v` (with `v` inside the bounds) yields a
bounded result — a single block within the same bounds, or two blocks
separated by the promoted key — whose stored values are the old ones plus
`v`. -/
theorem insertAux_spec (p : Params) (hp : p.legal) (v : α) (t : BTree α) :
    ∀ lo hi : Option α, b_tree.Bnd lo hi t →
    b_tree.lbOk lo v → b_tree.ubOk v hi →
    b_tree.InsOk lo hi (b_tree.insertAux p v t) ∧
    b_tree.InsPerm v t (b_tree.insertAux p v t) := by
  obtain ⟨hn2, hnmax, hl2, hlmax⟩ := hp
  refine b_tree.btreeInd (motive := fun t => ∀ lo hi : Option α,
    b_tree.Bnd lo hi t → b_tree.lbOk lo v → b_tree.ubOk v hi →
    b_tree.InsOk lo hi (b_tree.insertAux p v t) ∧
    b_tree.InsPerm v t (b_tree.insertAux p v t)) ?_ ?_ t
  · -- leaf
    intro vs lo hi hb hlov hvhi
    rw [b_tree.insertAux]
    by_cases hfull : vs.length = p.leafMax
    · rw [if_pos hfull]
      have hmax1 : 1 ≤ p.leafMax := by omega
      obtain ⟨hperm, hcross, hne, hpiv⟩ :=
        split_insert_spec p vs v hfull hmax1
      obtain ⟨hpmem, hple, hlep⟩ :=
        split_insert_pivot_spec p vs v hfull hmax1
      have hmemlr : ∀ x, x ∈ (b_tree_leaf.split_insert p vs v).left ++
          (b_tree_leaf.split_insert p vs v).right →
          b_tree.lbOk lo x ∧ b_tree.ubOk x hi := by
        intro x hx
        rcases List.mem_cons.1 (hperm.mem_iff.1 hx) with rfl | hxvs
        · exact ⟨hlov, hvhi⟩
        · exact hb x hxvs
      refine ⟨⟨?_, ?_, ?_, ?_⟩, ?_⟩
      · show b_tree.Bnd lo (some (b_tree_leaf.split_insert p vs v).pivot)
          (BTree.leaf (b_tree_leaf.split_insert p vs v).left)
        intro x hx
        exact ⟨(hmemlr x (List.mem_append_left _ hx)).1, hlep x hx⟩
      · show b_tree.Bnd (some (b_tree_leaf.split_insert p vs v).pivot) hi
          (BTree.leaf (b_tree_leaf.split_insert p vs v).right)
        intro y hy
        exact ⟨hple y hy, (hmemlr y (List.mem_append_right _ hy)).2⟩
      · exact (hmemlr _ (List.mem_append_right _ hpmem)).1
      · exact (hmemlr _ (List.mem_append_right _ hpmem)).2
      · show List.Perm ((b_tree_leaf.split_insert p vs v).left ++
          (b_tree_leaf.split_insert p vs v).right) (v :: vs)
        exact hperm
    · rw [if_neg hfull]
      refine ⟨?_, ?_⟩
      · show b_tree.Bnd lo hi (BTree.leaf (vs ++ [v]))
        intro x hx
        rcases List.mem_append.1 hx with hx | hx
        · exact hb x hx
        · rcases List.mem_singleton.1 hx with rfl
          exact ⟨hlov, hvhi⟩
      · show List.Perm (vs ++ [v]) (v :: vs)
        have h2 : List.Perm (vs ++ v :: ([] : List α))
            (v :: (vs ++ ([] : List α))) := List.perm_middle
        simpa using h2
  · -- node
    intro ch ks ih lo hi hb hlov hvhi
    simp only [b_tree.Bnd] at hb
    obtain ⟨res, heq, hone, hsplit⟩ := chain_step p v ks ch lo hi hb hlov
      hvhi (fun c hc lo2 hi2 => ih c hc lo2 hi2)
    have hlen := bndchain_length ks ch lo hi hb
    rw [b_tree.insertAux, heq]
    cases res with
    | one t2 =>
      obtain ⟨hchain, hperm⟩ := hone t2 rfl
      refine ⟨?_, ?_⟩
      · show b_tree.Bnd lo hi
          (BTree.node (ch.set (b_tree.childIndex ks v) t2) ks)
        simpa [b_tree.Bnd] using hchain
      · show List.Perm
          (b_tree.treeList
            (BTree.node (ch.set (b_tree.childIndex ks v) t2) ks))
          (v :: b_tree.treeList (BTree.node ch ks))
        simpa [b_tree.treeList] using hperm
    | split l k r =>
      dsimp only
      obtain ⟨hchain, hperm⟩ := hsplit l k r rfl
      have hile : b_tree.childIndex ks v ≤ ks.length :=
        childIndex_le_length ks v
      have hkslen : (ks.take (b_tree.childIndex ks v) ++ [k] ++
          ks.drop (b_tree.childIndex ks v)).length = ks.length + 1 := by
        simp [List.length_take, List.length_drop]
        omega
      by_cases hfull : ch.length = p.nodeMax
      · rw [if_pos hfull]
        have hks2 : 2 ≤ ks.length := by omega
        have hh : ((ks.take (b_tree.childIndex ks v) ++ [k] ++
            ks.drop (b_tree.childIndex ks v)).length + 1) / 2 <
            (ks.take (b_tree.childIndex ks v) ++ [k] ++
              ks.drop (b_tree.childIndex ks v)).length := by
          rw [hkslen]
          omega
        obtain ⟨hleft, hright, hmlb, hmub⟩ := chain_split
          (ks.take (b_tree.childIndex ks v) ++ [k] ++
            ks.drop (b_tree.childIndex ks v))
          (ch.take (b_tree.childIndex ks v) ++ [l, r] ++
            ch.drop (b_tree.childIndex ks v + 1))
          lo hi _ k hchain hh
        refine ⟨⟨?_, ?_, ?_, ?_⟩, ?_⟩
        · show b_tree.Bnd lo _ (BTree.node _ _)
          exact hleft
        · show b_tree.Bnd _ hi (BTree.node _ _)
          exact hright
        · exact hmlb
        · exact hmub
        · show List.Perm
            (b_tree.treeListAll ((ch.take (b_tree.childIndex ks v) ++
                [l, r] ++ ch.drop (b_tree.childIndex ks v + 1)).take
                (((ks.take (b_tree.childIndex ks v) ++ [k] ++
                  ks.drop (b_tree.childIndex ks v)).length + 1) / 2 + 1))
              ++ b_tree.treeListAll
                ((ch.take (b_tree.childIndex ks v) ++ [l, r] ++
                  ch.drop (b_tree.childIndex ks v + 1)).drop
                  (((ks.take (b_tree.childIndex ks v) ++ [k] ++
                    ks.drop (b_tree.childIndex ks v)).length + 1) / 2 + 1)))
            (v :: b_tree.treeList (BTree.node ch ks))
          rw [← treeListAll_append, List.take_append_drop]
          exact hperm
      · rw [if_neg hfull]
        refine ⟨?_, ?_⟩
        · show b_tree.Bnd lo hi (BTree.node
            (ch.take (b_tree.childIndex ks v) ++ [l, r] ++
              ch.drop (b_tree.childIndex ks v + 1))
            (ks.take (b_tree.childIndex ks v) ++ [k] ++
              ks.drop (b_tree.childIndex ks v)))
          simpa [b_tree.Bnd] using hchain
        · show List.Perm (b_tree.treeListAll
              (ch.take (b_tree.childIndex ks v) ++ [l, r] ++
                ch.drop (b_tree.childIndex ks v + 1)))
            (v :: b_tree.treeList (BTree.node ch ks))
          simpa [b_tree.treeList] using hperm


/-- Tree-level correctness of one `b_tree::insert`: on a tree satisfying
the search invariant, inserting `v` preserves the invariant and adds `v`
to the stored values (a root split installs a fresh `new_root` block of
degree 2). -/
theorem insert_spec (p : Params) (hp : p.legal) (v : α) (t : BTree α)
    (hb : b_tree.Bnd none none t) :
    b_tree.Bnd none none (b_tree.insert p v t) ∧
    List.Perm (b_tree.treeList (b_tree.insert p v t))
      (v :: b_tree.treeList t) := by
  obtain ⟨hok, hperm⟩ :=
    insertAux_spec p hp v t none none hb trivial trivial
  unfold b_tree.insert
  cases hres : b_tree.insertAux p v t with
  | one t2 =>
    rw [hres] at hok hperm
    exact ⟨hok, hperm⟩
  | split l k r =>
    rw [hres] at hok hperm
    obtain ⟨hbl, hbr, hklb, hkub⟩ := hok
    refine ⟨?_, ?_⟩
    · show b_tree.BndChain none none [l, r] [k]
      simp only [b_tree.BndChain]
      exact ⟨trivial, trivial, hbl, hbr⟩
    · show List.Perm (b_tree.treeListAll [l, r]) (v :: b_tree.treeList t)
      simp only [b_tree.treeListAll, List.append_nil]
      exact hperm

/-- Folding `b_tree::insert` over a value list, from any invariant-holding
start tree: the invariant is preserved and the stored values accumulate. -/
theorem insertAll_go (p : Params) (hp : p.legal) :
    ∀ (M : List α) (t : BTree α) (L : List α), b_tree.Bnd none none t →
    List.Perm (b_tree.treeList t) L →
    b_tree.Bnd none none
      (M.foldl (fun t2 v => b_tree.insert p v t2) t) ∧
    List.Perm
      (b_tree.treeList (M.foldl (fun t2 v => b_tree.insert p v t2) t))
      (M ++ L) := by
  intro M
  induction M with
  | nil =>
    intro t L hb hperm
    exact ⟨hb, by simpa using hperm⟩
  | cons m M ih =>
    intro t L hb hperm
    obtain ⟨hb2, hperm2⟩ := insert_spec p hp m t hb
    have hstep : List.Perm (b_tree.treeList (b_tree.insert p m t))
        (m :: L) := hperm2.trans (hperm.cons m)
    obtain ⟨hb3, hperm3⟩ := ih (b_tree.insert p m t) (m :: L) hb2 hstep
    refine ⟨hb3, hperm3.trans ?_⟩
    have h2 : List.Perm (M ++ m :: L) (m :: (M ++ L)) := List.perm_middle
    simpa using h2

/-- Claim C1: for every finite multiset of values `M` (any insertion
order) and any legal tree parameters, inserting every element of `M` into
a fresh empty b_tree and then calling `in_order_dump` yields exactly the
elements of `M`, sorted in non-decreasing key order under the tree's
comparator (`std::less` on the default traits). -/
theorem C1_insert_all_dump_sorted (p : Params) (hp : p.legal)
    (M : List α) :
    List.Perm (b_tree.in_order_dump (b_tree.insertAll p M)) M ∧
    List.Sorted (· ≤ ·) (b_tree.in_order_dump (b_tree.insertAll p M)) := by
  have hbase : b_tree.Bnd none none (BTree.leaf ([] : List α)) := by
    intro x hx
    cases hx
  obtain ⟨hb, hperm⟩ := insertAll_go p hp M (BTree.leaf []) [] hbase
    (by show List.Perm [] []
        exact List.Perm.refl [])
  constructor
  · show List.Perm (b_tree.in_order_dump
      (M.foldl (fun t2 v => b_tree.insert p v t2) (BTree.leaf []))) M
    refine (dump_perm_treeList _).trans (hperm.trans ?_)
    simp
  · exact bnd_dump_sorted _ none none hb

/-- Witness for C1 at the legal parameters `(2, 3, 2, 3)` and the concrete
multiset `[3, 1, 2, 1]` over `Nat` (whose insertion forces a leaf split). -/
theorem C1_insert_all_dump_sorted_witness :
    Params.legal ⟨2, 3, 2, 3⟩ ∧
    (List.Perm (b_tree.in_order_dump
        (b_tree.insertAll (⟨2, 3, 2, 3⟩ : Params) ([3, 1, 2, 1] : List Nat)))
        [3, 1, 2, 1] ∧
      List.Sorted (· ≤ ·) (b_tree.in_order_dump
        (b_tree.insertAll (⟨2, 3, 2, 3⟩ : Params)
          ([3, 1, 2, 1] : List Nat)))) :=
  ⟨by decide,
    C1_insert_all_dump_sorted ⟨2, 3, 2, 3⟩ (by decide) [3, 1, 2, 1]⟩

end Tpie
